import Mathlib

/-!
Netscape cookie jar: line codec and jar.

A shallow embedding of `parser.go` (the line codec `Marshal` / `Unmarshal`) and
`jar.go` (the jar: `putCookie`, `SetCookies`, `ReadFrom`, `WriteTo`).

Conventions of the embedding:

* a Go `string` or `[]byte` is a `List Char`, one `Char` per byte;
* `*http.Cookie` is a value of `Cookie` (pointers are non-nil and unaliased), holding
  the seven fields the package reads or writes;
* `time.Time` is what its three fields hold: the instant (Unix seconds and the
  nanoseconds within the second), the monotonic clock reading when it has one, and
  the location pointer; Go `==` on two times is equality of all of these;
* an `error` is a value of `Error`; a Go result `(x, err)` is an `Except Error _`;
* byte counts (`int64` in the source) are natural numbers: they count bytes of
  streams held in memory and stay far below `2 ^ 63`;
* a Go map is an association list whose order stands for the unspecified order of
  `range`; the mutex of the jar is not modelled (calls are sequential);
* the functions of the Go standard library the package calls (`strings`, `strconv`,
  `bufio`, `io`) are transcribed from their Go sources next to their callers.
-/

namespace NetscapeCookieJar

/-- A Go string: a sequence of bytes. -/
abbrev Str := List Char

/-! ## Standard library: `strings` and `strconv` -/

/-- Go `strings.HasPrefix(s, p)`. -/
def HasPrefix (s p : Str) : Bool := p.isPrefixOf s

/-- Go `strings.Join(elems, sep)`. -/
def Join : List Str → Str → Str
  | [], _ => []
  | [a], _ => a
  | a :: b :: rest, sep => a ++ sep ++ Join (b :: rest) sep

/-- Go `strings.Index(s, sep)` for a one-byte separator, returned as the cut it is
used for in `genSplit`: `s[:m]` and `s[m+1:]`, or `none` when `m < 0`. -/
def cutAt (sep : Char) : Str → Option (Str × Str)
  | [] => none
  | c :: cs =>
    if c = sep then some ([], cs)
    else match cutAt sep cs with
      | none => none
      | some (a, b) => some (c :: a, b)

/-- Go `strings.SplitN(s, sep, n)` for a one-byte separator and `n ≥ 0`: at most `n`
substrings, the last one being the unsplit remainder. -/
def SplitN (s : Str) (sep : Char) : Nat → List Str
  | 0 => []
  | 1 => [s]
  | n + 2 =>
    match cutAt sep s with
    | none => [s]
    | some (a, b) => a :: SplitN b sep (n + 1)

/-- Go `strings.ToUpper`, on the ASCII strings it is applied to here. -/
def ToUpper (s : Str) : Str := s.map Char.toUpper

/-- Go `strconv.FormatBool`. -/
def FormatBool (b : Bool) : Str := if b then "true".toList else "false".toList

/-- Errors of the package and of the library calls it propagates. -/
inductive Error where
  /-- `fmt.Errorf("not enough tokens %d", n)` -/
  | notEnoughTokens (n : Nat)
  /-- `*strconv.NumError` wrapping `strconv.ErrSyntax` -/
  | numSyntax (fn num : Str)
  /-- `*strconv.NumError` wrapping `strconv.ErrRange` -/
  | numRange (fn num : Str)
  /-- an error returned by an `io.Reader` or an `io.Writer` -/
  | ioErr (msg : Str)
  deriving DecidableEq, Repr

deriving instance DecidableEq for Except

/-- Go `strconv.ParseBool`. -/
def ParseBool (str : Str) : Except Error Bool :=
  if str = "1".toList ∨ str = "t".toList ∨ str = "T".toList ∨ str = "true".toList
      ∨ str = "TRUE".toList ∨ str = "True".toList then .ok true
  else if str = "0".toList ∨ str = "f".toList ∨ str = "F".toList ∨ str = "false".toList
      ∨ str = "FALSE".toList ∨ str = "False".toList then .ok false
  else .error (.numSyntax "ParseBool".toList str)

/-- The digit a byte stands for in base 10 (`'0' <= c && c <= '9'`). -/
def digitVal (c : Char) : Option Nat :=
  if '0'.toNat ≤ c.toNat ∧ c.toNat ≤ '9'.toNat then some (c.toNat - '0'.toNat) else none

/-- Outcome of the digit loop of `strconv.ParseUint`. -/
inductive UintResult where
  | val (n : Nat)
  | badSyntax
  | outOfRange
  deriving DecidableEq, Repr

/-- The digit loop of Go `strconv.ParseUint(s, 10, 64)`, from the accumulator `n`:
a byte that is no decimal digit is a syntax error; `n >= cutoff` (where `n*10`
overflows) and `n*10 + d > maxVal` are range errors, reported where they occur. -/
def parseUintLoop : Str → Nat → UintResult
  | [], n => .val n
  | c :: cs, n =>
    match digitVal c with
    | none => .badSyntax
    | some d =>
      if n ≥ (2 ^ 64 - 1) / 10 + 1 then .outOfRange
      else if n * 10 + d > 2 ^ 64 - 1 then .outOfRange
      else parseUintLoop cs (n * 10 + d)

/-- Go `strconv.ParseUint(s, 10, 64)`. -/
def ParseUint (s : Str) : UintResult :=
  if s = [] then .badSyntax else parseUintLoop s 0

/-- Go `strconv.ParseInt(s, 10, 64)`: an optional sign, then `ParseUint`, then the
check against the signed 64-bit range. -/
def ParseInt (s : Str) : Except Error Int :=
  match s with
  | [] => .error (.numSyntax "ParseInt".toList s)
  | c :: cs =>
    let neg := decide (c = '-')
    let body := if c = '+' ∨ c = '-' then cs else s
    match ParseUint body with
    | .badSyntax => .error (.numSyntax "ParseInt".toList s)
    | .outOfRange => .error (.numRange "ParseInt".toList s)
    | .val un =>
      if ¬ neg ∧ un ≥ 2 ^ 63 then .error (.numRange "ParseInt".toList s)
      else if neg ∧ un > 2 ^ 63 then .error (.numRange "ParseInt".toList s)
      else .ok (if neg then - (un : Int) else (un : Int))

/-- The byte of a decimal digit. -/
def digitChar (d : Nat) : Char := Char.ofNat ('0'.toNat + d)

/-- The decimal digits of `n` in front of `acc` (the loop of Go `formatBits` for
base 10, one digit per step); `fuel` bounds the number of digits. -/
def formatBits : Nat → Nat → Str → Str
  | 0, _, acc => acc
  | fuel + 1, n, acc =>
    if n < 10 then digitChar n :: acc
    else formatBits fuel (n / 10) (digitChar (n % 10) :: acc)

/-- Go `strconv.FormatInt(i, 10)`: the decimal digits of `|i|`, after a minus sign
when `i < 0`. -/
def FormatInt (i : Int) : Str :=
  if i < 0 then '-' :: formatBits (i.natAbs + 1) i.natAbs []
  else formatBits (i.natAbs + 1) i.natAbs []

/-! ## `parser.go` -/

/-- The field `loc` of a Go `time.Time`, a `*time.Location` compared by address:
the nil pointer, which stands for UTC (what `Time.UTC()` sets), the pointer
`time.Local` (what `time.Unix` sets), or the address of another location. -/
inductive Location where
  | UTC
  | Local
  | other (addr : Nat)
  deriving DecidableEq, Repr

/-- Go `time.Time`, by what its fields `wall`, `ext` and `loc` hold: the seconds
since the Unix epoch and the nanoseconds within the second (the instant), the
monotonic clock reading when the value carries one, and the location pointer.
Go `==` on two `time.Time` values compares the three fields, hence all four
components here: it is the equality of this structure. -/
structure Time where
  sec : Int
  nsec : Nat
  mono : Option Int
  loc : Location
  deriving DecidableEq, Repr

/-- Go `Time.Unix()`. -/
def Time.Unix (t : Time) : Int := t.sec

/-- Go `time.Unix(sec, 0)`: no nanoseconds, no monotonic clock reading, and the
location `time.Local`. -/
def timeUnix (sec : Int) : Time := { sec := sec, nsec := 0, mono := none, loc := Location.Local }

/-- Go `Time.UTC()`: the same instant with the location set to UTC (`setLoc`, which
also strips the monotonic clock reading). -/
def Time.UTC (t : Time) : Time := { t with mono := none, loc := Location.UTC }

/-- The fields of `http.Cookie` used by the package. -/
structure Cookie where
  Name : Str
  Value : Str
  Path : Str
  Domain : Str
  Expires : Time
  Secure : Bool
  HttpOnly : Bool
  deriving DecidableEq, Repr

/-- The constant `httpOnlyPrefix`. -/
def httpOnlyMarker : Str := "#HttpOnly_".toList

/-- The function `Marshal`: a cookie to its line. -/
def Marshal (cookie : Cookie) : Except Error Str :=
  let domain := cookie.Domain
  let includeSubdomains := HasPrefix cookie.Domain ".".toList
  let domain := if cookie.HttpOnly then httpOnlyMarker ++ domain else domain
  let path := cookie.Path
  let path := if path = [] then "/".toList else path
  let tokens : List Str :=
    [ domain,
      ToUpper (FormatBool includeSubdomains),
      path,
      ToUpper (FormatBool cookie.Secure),
      FormatInt cookie.Expires.Unix,
      cookie.Name,
      cookie.Value ]
  .ok (Join tokens "\t".toList)

/-- The function `Unmarshal`: a line to a cookie, to `none` for a comment or blank
line, or to an error. -/
def Unmarshal (line : Str) : Except Error (Option Cookie) :=
  if line = [] ∨ (HasPrefix line "#".toList ∧ ¬ HasPrefix line httpOnlyMarker) then
    .ok none
  else
    let tokens := SplitN line '\t' 7
    if tokens.length < 7 then .error (.notEnoughTokens tokens.length)
    else
      let domain := tokens.getD 0 []
      match ParseBool (tokens.getD 1 []) with
      | .error err => .error err
      | .ok includeSubdomains =>
        let path := tokens.getD 2 []
        match ParseBool (tokens.getD 3 []) with
        | .error err => .error err
        | .ok secure =>
          match ParseInt (tokens.getD 4 []) with
          | .error err => .error err
          | .ok expires =>
            let name := tokens.getD 5 []
            let value := tokens.getD 6 []
            let httpOnly := HasPrefix domain httpOnlyMarker
            let domain := if httpOnly then domain.drop httpOnlyMarker.length else domain
            let domain :=
              if includeSubdomains then
                if ¬ HasPrefix domain ".".toList then ".".toList ++ domain else domain
              else
                if HasPrefix domain ".".toList then domain.drop 1 else domain
            .ok (some
              { Domain := domain, HttpOnly := httpOnly, Path := path, Secure := secure,
                Expires := timeUnix expires, Name := name, Value := value })

/-! ## Standard library: `io` and `bufio` -/

/-- An `io.Writer`: the bytes it has accepted and, when `room` is `some k`, the
number of bytes it still accepts before its writes fail. -/
structure Writer where
  out : Str
  room : Option Nat
  deriving DecidableEq, Repr

/-- The method `Write(p)` of a `Writer`: the writer after the call, the number of
bytes written and the error. A writer without room left writes what fits and
reports an error. -/
def Writer.Write (w : Writer) (p : Str) : Writer × Nat × Option Error :=
  match w.room with
  | none => ({ w with out := w.out ++ p }, p.length, none)
  | some k =>
    if p.length ≤ k then ({ out := w.out ++ p, room := some (k - p.length) }, p.length, none)
    else ({ out := w.out ++ p.take k, room := some 0 }, k, some (.ioErr "short write".toList))

/-- An `io.Reader`: the bytes it still has to deliver, upper bounds on the sizes of
the chunks its next `Read` calls deliver (once the schedule is used up a `Read`
delivers all it is asked for), and the error it reports once the bytes are
exhausted (`none` stands for `io.EOF`). -/
structure Reader where
  data : Str
  sched : List Nat
  fail : Option Error
  deriving DecidableEq, Repr

/-- The errors a `bufio.Scanner` records in its field `err`. -/
inductive ScanErr where
  /-- `io.EOF` -/
  | eof
  /-- `bufio.ErrTooLong` -/
  | tooLong
  /-- `io.ErrNoProgress` -/
  | noProgress
  /-- an error of the underlying reader -/
  | read (e : Error)
  deriving DecidableEq, Repr

/-- The method `Read(p)` of a `Reader` for a destination of `k = len(p)` bytes: the
bytes delivered, the error, and the reader after the call. -/
def Reader.Read (r : Reader) (k : Nat) : Str × Option ScanErr × Reader :=
  match r.data with
  | [] => ([], some (match r.fail with | none => .eof | some e => .read e), r)
  | _ :: _ =>
    let m := match r.sched with
      | [] => k
      | b :: _ => min b k
    (r.data.take m, none, { r with data := r.data.drop m, sched := r.sched.tail })

/-- Go `bufio.MaxScanTokenSize`. -/
def maxScanTokenSize : Nat := 64 * 1024

/-- Go `bufio.startBufSize`. -/
def startBufSize : Nat := 4096

/-- Go `bufio.maxConsecutiveEmptyReads`. -/
def maxConsecutiveEmptyReads : Nat := 100

/-- A `bufio.Scanner` over `io.TeeReader(r, &c)`: the reader `r`, the counter `c`
(the number of bytes the reader has delivered so far), the length of the buffer
`len(s.buf)`, the index `s.start`, the window `s.buf[s.start:s.end]` and the field
`s.err`. -/
structure Scanner where
  r : Reader
  c : Nat
  bufLen : Nat
  start : Nat
  win : Str
  err : Option ScanErr
  deriving DecidableEq, Repr

/-- The index `s.end`. -/
def Scanner.endIdx (s : Scanner) : Nat := s.start + s.win.length

/-- Go `bufio.NewScanner(io.TeeReader(r, &c))` with `c = 0`. -/
def NewScanner (r : Reader) : Scanner :=
  { r := r, c := 0, bufLen := 0, start := 0, win := [], err := none }

/-- Go `bufio.dropCR`. -/
def dropCR (data : Str) : Str :=
  if data.getLast? = some '\r' then data.dropLast else data

/-- Go `bufio.ScanLines(data, atEOF)`: the advance and the token (`none` for a nil
token: more data is requested). -/
def ScanLines (data : Str) (atEOF : Bool) : Nat × Option Str :=
  if atEOF ∧ data = [] then (0, none)
  else
    match cutAt '\n' data with
    | some (a, _) => (a.length + 1, some (dropCR a))
    | none => if atEOF then (data.length, some (dropCR data)) else (0, none)

/-- The read loop at the end of an iteration of `Scanner.Scan`: read into
`s.buf[s.end:len(s.buf)]` until bytes arrive or an error is recorded; `tries` empty
reads are still allowed before `io.ErrNoProgress`. -/
def Scanner.fill : Nat → Scanner → Scanner
  | 0, s => { s with err := some .noProgress }
  | tries + 1, s =>
    match s.r.Read (s.bufLen - s.endIdx) with
    | (bytes, some e, r) =>
      { s with r := r, c := s.c + bytes.length, win := s.win ++ bytes, err := some e }
    | (bytes, none, r) =>
      let s := { s with r := r, c := s.c + bytes.length, win := s.win ++ bytes }
      if bytes.length > 0 then s
      else if tries = 0 then { s with err := some .noProgress }
      else Scanner.fill tries s

/-- The loop of `Scanner.Scan` with the split function `bufio.ScanLines`: the scanner
after the call and the token (`none` when `Scan` returns false). The outer `none`
is returned when `fuel` iterations did not suffice. The branches of the source that
`bufio.ScanLines` and a `Reader` of this model never reach are left out: a negative
or too large advance, `ErrFinalToken`, `ErrBadReadCount`, and the count of empty
tokens. -/
def Scanner.scanLoop : Nat → Scanner → Option (Scanner × Option Str)
  | 0, _ => none
  | fuel + 1, s =>
    let tokenStep : Scanner × Option Str :=
      if s.win ≠ [] ∨ s.err ≠ none then
        let (advance, token) := ScanLines s.win (s.err ≠ none)
        ({ s with start := s.start + advance, win := s.win.drop advance }, token)
      else (s, none)
    match tokenStep with
    | (s, some token) => some (s, some token)
    | (s, none) =>
      if s.err ≠ none then some ({ s with start := 0, win := [] }, none)
      else
        let s :=
          if s.start > 0 ∧ (s.endIdx = s.bufLen ∨ s.start > s.bufLen / 2) then
            { s with start := 0 }
          else s
        if s.endIdx = s.bufLen then
          if s.bufLen ≥ maxScanTokenSize then some ({ s with err := some .tooLong }, none)
          else
            let newSize := s.bufLen * 2
            let newSize := if newSize = 0 then startBufSize else newSize
            let newSize := min newSize maxScanTokenSize
            Scanner.scanLoop fuel
              (Scanner.fill (maxConsecutiveEmptyReads + 1) { s with bufLen := newSize, start := 0 })
        else
          Scanner.scanLoop fuel (Scanner.fill (maxConsecutiveEmptyReads + 1) s)

/-- The method `Scanner.Scan`: every iteration of its loop that does not return
reads at least one byte or records an error, so `len(data) + 2` iterations
suffice. -/
def Scanner.Scan (s : Scanner) : Option (Scanner × Option Str) :=
  Scanner.scanLoop (s.r.data.length + 2) s

/-! ## `jar.go` -/

/-- The fields of `url.URL` the package sets. -/
structure URL where
  Scheme : Str
  Host : Str
  Path : Str
  deriving DecidableEq, Repr

/-- The struct `entryKey`. -/
structure entryKey where
  Domain : Str
  Path : Str
  Name : Str
  deriving DecidableEq, Repr

/-- A Go map as an association list with at most one pair per key; the order of the
list stands for the unspecified order in which `range` visits the map. -/
abbrev GoMap (κ ν : Type) := List (κ × ν)

/-- The map read `m[k]` (`none` for the zero value of an absent key). -/
def mapGet {κ ν : Type} [DecidableEq κ] : GoMap κ ν → κ → Option ν
  | [], _ => none
  | (k', v) :: rest, k => if k' = k then some v else mapGet rest k

/-- The map write `m[k] = v`. -/
def mapSet {κ ν : Type} [DecidableEq κ] : GoMap κ ν → κ → ν → GoMap κ ν
  | [], k, v => [(k, v)]
  | (k', v') :: rest, k, v =>
    if k' = k then (k, v) :: rest else (k', v') :: mapSet rest k v

/-- The delegate `http.CookieJar`, observed through the `SetCookies` calls it
receives, oldest first. -/
abbrev SubJar := List (URL × List Cookie)

/-- The struct `Jar`, without its mutex. -/
structure Jar where
  subJar : SubJar
  autoWritePath : Str
  writeHeader : Bool
  entries : GoMap entryKey Cookie
  deriving DecidableEq, Repr

/-- The struct `Options`; `SubJar = none` is the nil interface. -/
structure Options where
  SubJar : Option SubJar
  AutoWritePath : Str
  WriteHeader : Bool

/-- The function `New`; `cookiejar.New(nil)` is the empty delegate. -/
def New (options : Option Options) : Jar :=
  match options with
  | none => { subJar := [], autoWritePath := [], writeHeader := false, entries := [] }
  | some o =>
    { subJar := o.SubJar.getD [], autoWritePath := o.AutoWritePath,
      writeHeader := o.WriteHeader, entries := [] }

/-- The key `putCookie` computes for a cookie. -/
def keyOf (cookie : Cookie) : entryKey :=
  { Domain := cookie.Domain, Path := cookie.Path, Name := cookie.Name }

/-- The method `putCookie`: the jar after the call and the returned flag. The Go `==`
on the two `Expires` is the equality of `Time`: it compares the instant, the
monotonic clock reading and the location. -/
def putCookie (j : Jar) (cookie : Cookie) : Jar × Bool :=
  let key := keyOf cookie
  let e := mapGet j.entries key
  let j := { j with entries := mapSet j.entries key cookie }
  match e with
  | some e =>
    if e.Secure = cookie.Secure ∧ e.Expires = cookie.Expires ∧ e.Value = cookie.Value then
      (j, false)
    else (j, true)
  | none => (j, true)

/-- The header `unlockedWriteTo` writes when `writeHeader` is set. -/
def fileHeader : Str :=
  "# Netscape HTTP Cookie File\n# https://curl.se/docs/http-cookies.html\n\n".toList

/-- The loop of `unlockedWriteTo` over the entries still to visit: the writer, the
count `n` and the error after it. -/
def writeEntries : List (entryKey × Cookie) → Writer → Nat → Writer × Nat × Option Error
  | [], w, n => (w, n, none)
  | (_, cookie) :: rest, w, n =>
    match Marshal cookie with
    | .error err => (w, n, some err)
    | .ok line =>
      match w.Write (line ++ "\n".toList) with
      | (w, sn, some err) => (w, n + sn, some err)
      | (w, sn, none) => writeEntries rest w (n + sn)

/-- The method `unlockedWriteTo`. -/
def unlockedWriteTo (j : Jar) (w : Writer) : Writer × Nat × Option Error :=
  if j.writeHeader then
    match w.Write fileHeader with
    | (w, sn, some err) => (w, sn, some err)
    | (w, sn, none) => writeEntries j.entries w sn
  else writeEntries j.entries w 0

/-- The method `WriteTo`. -/
def WriteTo (j : Jar) (w : Writer) : Writer × Nat × Option Error :=
  unlockedWriteTo j w

/-- What `os.Create` returns for a path: an error, or a file with its writer and
the error of its `Close`. -/
structure File where
  w : Writer
  closeErr : Option Error
  deriving DecidableEq, Repr

/-- Outcome of `SetCookies`: the jar after the call, the paths `os.Create` was
called with, the file written by the auto-write (its path and writer after the
call) and the value of the panic, if the call panicked. -/
structure SetResult where
  jar : Jar
  created : List Str
  file : Option (Str × Writer)
  panicked : Option Error
  deriving DecidableEq, Repr

/-- The loop of `SetCookies` and of `ReadFrom` over `putCookie`:
`modified = j.putCookie(cookie) || modified`. -/
def putAll (j : Jar) (modified : Bool) : List Cookie → Jar × Bool
  | [] => (j, modified)
  | cookie :: rest =>
    let (j, b) := putCookie j cookie
    putAll j (b || modified) rest

/-- The method `SetCookies`; `create` is `os.Create`. -/
def SetCookies (j : Jar) (create : Str → Except Error File) (u : URL)
    (cookies : List Cookie) : SetResult :=
  let j := { j with subJar := j.subJar ++ [(u, cookies)] }
  let (j, modified) := putAll j false cookies
  if modified ∧ j.autoWritePath ≠ [] then
    match create j.autoWritePath with
    | .error err =>
      { jar := j, created := [j.autoWritePath], file := none, panicked := some err }
    | .ok file =>
      match unlockedWriteTo j file.w with
      | (w, _, some err) =>
        { jar := j, created := [j.autoWritePath], file := some (j.autoWritePath, w),
          panicked := some (file.closeErr.getD err) }
      | (w, _, none) =>
        { jar := j, created := [j.autoWritePath], file := some (j.autoWritePath, w),
          panicked := file.closeErr }
  else { jar := j, created := [], file := none, panicked := none }

/-- The first loop of `ReadFrom`: scan and decode the lines, collecting the cookies.
The result is the scanner when the loop ends, and the cookies or the decode
error; the outer `none` is returned when `fuel` calls of `Scan` did not
suffice. -/
def readLines : Nat → Scanner → List Cookie → Option (Scanner × Except Error (List Cookie))
  | 0, _, _ => none
  | fuel + 1, s, cookies =>
    match s.Scan with
    | none => none
    | some (s, none) => some (s, .ok cookies)
    | some (s, some line) =>
      match Unmarshal line with
      | .error err => some (s, .error err)
      | .ok none => readLines fuel s cookies
      | .ok (some cookie) => readLines fuel s (cookies ++ [cookie])

/-- The struct `key` local to `ReadFrom`. -/
structure originKey where
  Secure : Bool
  Domain : Str
  Path : Str
  deriving DecidableEq, Repr

/-- The body of the second loop of `ReadFrom` for one cookie. -/
def groupStep (st : Jar × Bool × GoMap originKey (List Cookie)) (cookie : Cookie) :
    Jar × Bool × GoMap originKey (List Cookie) :=
  let (j, modified, cookiesMap) := st
  let domain := cookie.Domain
  let domain := if HasPrefix domain ".".toList then domain.drop 1 else domain
  let k : originKey := { Secure := cookie.Secure, Domain := domain, Path := cookie.Path }
  let cookiesMap := mapSet cookiesMap k ((mapGet cookiesMap k).getD [] ++ [cookie])
  let (j, b) := putCookie j cookie
  (j, b || modified, cookiesMap)

/-- The body of the third loop of `ReadFrom` for one group. -/
def forwardStep (j : Jar) (kv : originKey × List Cookie) : Jar :=
  let u : URL :=
    { Scheme := if kv.1.Secure then "https".toList else "http".toList,
      Host := kv.1.Domain, Path := kv.1.Path }
  { j with subJar := j.subJar ++ [(u, kv.2)] }

/-- Outcome of `ReadFrom`: the jar after the call, the returned count, the returned
error and the paths `os.Create` was called with. -/
structure ReadResult where
  jar : Jar
  n : Nat
  err : Option Error
  created : List Str
  deriving DecidableEq, Repr

/-- The method `ReadFrom`. The flag `modified` of its second loop is computed and
not used, `scanner.Err()` is not consulted, and the method holds no call of
`os.Create`. Every token the scanner returns consumes at least one byte, so
`len(data) + 1` calls of `Scan` suffice; `none` is returned if they did not. -/
def ReadFrom (j : Jar) (r : Reader) : Option ReadResult :=
  match readLines (r.data.length + 1) (NewScanner r) [] with
  | none => none
  | some (s, .error err) => some { jar := j, n := s.c, err := some err, created := [] }
  | some (s, .ok cookies) =>
    let (j, _, cookiesMap) := cookies.foldl groupStep (j, false, [])
    some { jar := cookiesMap.foldl forwardStep j, n := s.c, err := none, created := [] }

/-- The message of `fmt.Errorf("not enough tokens %d", n)`. -/
def notEnoughTokensMessage (n : Nat) : Str :=
  "not enough tokens ".toList ++ formatBits (n + 1) n []

/-- A line `Unmarshal` treats as a comment or blank: empty, or beginning with `#`
without beginning with the HttpOnly marker. -/
def isCommentOrBlank (line : Str) : Prop :=
  line = [] ∨ (HasPrefix line "#".toList = true ∧ HasPrefix line httpOnlyMarker = false)

instance (line : Str) : Decidable (isCommentOrBlank line) := by
  unfold isCommentOrBlank; infer_instance

/-- The decimal numeral of a natural number, most significant digit first, as the
claims speak of it: `0` for zero, otherwise the base-10 digits without leading
zero. -/
def decimalNat (n : Nat) : Str :=
  if n = 0 then ['0'] else (Nat.digits 10 n).reverse.map digitChar

/-- The decimal numeral of an integer: a minus sign when negative, then the
numeral of the absolute value. -/
def decimalInt (i : Int) : Str :=
  if i < 0 then '-' :: decimalNat i.natAbs else decimalNat i.natAbs

/-- The line of seven fields joined by single tabs. -/
def sevenFields (f1 f2 f3 f4 f5 f6 f7 : Str) : Str :=
  f1 ++ '\t' :: (f2 ++ '\t' :: (f3 ++ '\t' :: (f4 ++ '\t' :: (f5 ++ '\t' :: (f6 ++ '\t' :: f7)))))

/-- The literal `TRUE` or `FALSE` of a flag. -/
def boolLiteral (b : Bool) : Str := if b then "TRUE".toList else "FALSE".toList

/-- What follows the first tab of a line (empty when there is no tab). -/
def afterTab (s : Str) : Str := (s.dropWhile (fun c => c != '\t')).drop 1

/-- The tab-separated field number `k` (from 0) of a line, as the claims speak of
it; a line with fewer fields has empty fields beyond its last one. -/
def fieldAt : Str → Nat → Str
  | s, 0 => s.takeWhile (fun c => c != '\t')
  | s, k + 1 => fieldAt (afterTab s) k

/-- What follows the tab number `k` (from 1) of a line; the line itself for
`k = 0`. -/
def afterTabs : Str → Nat → Str
  | s, 0 => s
  | s, k + 1 => afterTabs (afterTab s) k

/-- The domain with one leading dot added when the flag is true and the dot is
missing, and with one leading dot removed when the flag is false. -/
def dotNormalize (flag : Bool) (d : Str) : Str :=
  match flag, d with
  | true, '.' :: rest => '.' :: rest
  | true, d => '.' :: d
  | false, '.' :: rest => rest
  | false, d => d

/-- Field 1 of a line without the HttpOnly marker, when it begins with it. -/
def stripMarker (f : Str) : Str :=
  if "#HttpOnly_".toList.isPrefixOf f then f.drop 10 else f

/-- The record the claims describe for a line with at least seven fields whose
fields 2, 4 and 5 parsed to `flag`, `secure` and `expires`. -/
def recordOf (line : Str) (flag secure : Bool) (expires : Int) : Cookie :=
  { Domain := dotNormalize flag (stripMarker (fieldAt line 0)),
    HttpOnly := HasPrefix (fieldAt line 0) httpOnlyMarker,
    Path := fieldAt line 2,
    Secure := secure,
    Expires := { sec := expires, nsec := 0, mono := none, loc := Location.Local },
    Name := fieldAt line 5,
    Value := afterTabs line 6 }

/-- The line of a cookie, as the claims describe it. -/
def cookieLine (c : Cookie) : Str :=
  sevenFields
    (if c.HttpOnly then "#HttpOnly_".toList ++ c.Domain else c.Domain)
    (if c.Domain.head? = some '.' then "TRUE".toList else "FALSE".toList)
    (if c.Path = [] then "/".toList else c.Path)
    (if c.Secure then "TRUE".toList else "FALSE".toList)
    (decimalInt c.Expires.sec)
    c.Name
    c.Value

/-- The insertion of a cookie under its key, as the claims speak of it. -/
def insertCookie (m : GoMap entryKey Cookie) (c : Cookie) : GoMap entryKey Cookie :=
  mapSet m (keyOf c) c

/-- The comparison of `putCookie`, on the table before the call: the table holds no
record under the key of the cookie, or the record it holds differs from the cookie
in `Secure`, in `Expires` as Go `==` compares two `time.Time` values (instant,
monotonic clock reading and location), or in `Value`. -/
def isModification (m : GoMap entryKey Cookie) (c : Cookie) : Bool :=
  match mapGet m (keyOf c) with
  | none => true
  | some e => decide (e.Secure ≠ c.Secure ∨ e.Expires ≠ c.Expires ∨ e.Value ≠ c.Value)

/-- Whether the comparison of `putCookie` holds for at least one cookie of a batch,
applied in batch order. -/
def anyModification : GoMap entryKey Cookie → List Cookie → Bool
  | _, [] => false
  | m, c :: rest => isModification m c || anyModification (insertCookie m c) rest

/-- The change-detection policy, as the claims state it: a cookie is a modification
of a table when the table holds no record under its key, or the record it holds
differs from the cookie in secure, in the expiry timestamp (seconds or nanoseconds)
or in value. -/
def policyModification (m : GoMap entryKey Cookie) (c : Cookie) : Bool :=
  match mapGet m (keyOf c) with
  | none => true
  | some e =>
    decide (e.Secure ≠ c.Secure ∨ e.Expires.sec ≠ c.Expires.sec ∨
      e.Expires.nsec ≠ c.Expires.nsec ∨ e.Value ≠ c.Value)

/-- Whether at least one cookie of a batch, applied in batch order, is a
modification under the change-detection policy. -/
def anyPolicyModification : GoMap entryKey Cookie → List Cookie → Bool
  | _, [] => false
  | m, c :: rest => policyModification m c || anyPolicyModification (insertCookie m c) rest

/-- The jar of the witnesses: auto-write to `cookies.txt`, and one stored cookie. -/
def sampleJar : Jar :=
  { subJar := [], autoWritePath := "cookies.txt".toList, writeHeader := false,
    entries := [({ Domain := "a.com".toList, Path := "/".toList, Name := "n".toList },
      { Domain := "a.com".toList, Path := "/".toList, Name := "n".toList, Value := "v".toList,
        Secure := false, HttpOnly := false, Expires := timeUnix 0 })] }

/-- The lines of the entries of a table, in the order of the table, each followed
by a newline. -/
def tableLines : List (entryKey × Cookie) → Str
  | [] => []
  | kv :: rest => cookieLine kv.2 ++ '\n' :: tableLines rest

/-- The reader of one cookie line, delivered in one chunk and followed by the end
of input. -/
def oneLineReader : Reader :=
  { data := "a.com\tFALSE\t/\tFALSE\t0\tn\tv\n".toList, sched := [], fail := none }

/-- The cookie of that line. -/
def oneLineCookie : Cookie :=
  { Domain := "a.com".toList, Path := "/".toList, Name := "n".toList, Value := "v".toList,
    Secure := false, HttpOnly := false, Expires := timeUnix 0 }

/-- The cookie stored in the sample jar with its expiry `time.Unix(0, 0).UTC()`: the
same instant in UTC, the location `net/http` gives the expiry of a `Set-Cookie`
header. -/
def utcCookie : Cookie := { oneLineCookie with Expires := (timeUnix 0).UTC }

/-- The URL `http://a.com/`. -/
def sampleURL : URL := { Scheme := "http".toList, Host := "a.com".toList, Path := "/".toList }

/-- An `os.Create` that returns an empty file, which accepts every write in full and
closes without error. -/
def createEmpty (_ : Str) : Except Error File :=
  .ok { w := { out := [], room := none }, closeErr := none }

/-- A byte that is a decimal digit. -/
def isDecimalDigit (c : Char) : Prop := '0'.toNat ≤ c.toNat ∧ c.toNat ≤ '9'.toNat

instance (c : Char) : Decidable (isDecimalDigit c) := by
  unfold isDecimalDigit; infer_instance

/-- The value of a string of decimal digits read from the accumulator `m`. -/
def digitsValueFrom (m : Nat) (ds : Str) : Nat :=
  ds.foldl (fun a c => a * 10 + (c.toNat - '0'.toNat)) m

/-- The integer a string denotes in base 10 when it is a numeral of the signed
64-bit range: an optional sign `+` or `-`, then one or more decimal digits. -/
def int64Numeral (s : Str) : Option Int :=
  match s with
  | [] => none
  | c :: cs =>
    let ds := if c = '+' ∨ c = '-' then cs else c :: cs
    if ds ≠ [] ∧ ∀ d ∈ ds, isDecimalDigit d then
      let v : Int := if c = '-' then - (digitsValueFrom 0 ds : Int) else (digitsValueFrom 0 ds : Int)
      if - 2 ^ 63 ≤ v ∧ v < 2 ^ 63 then some v else none
    else none

/-- The literals `strconv.ParseBool` accepts. -/
def boolLiterals : List Str :=
  ["1".toList, "t".toList, "T".toList, "TRUE".toList, "true".toList, "True".toList,
   "0".toList, "f".toList, "F".toList, "FALSE".toList, "false".toList, "False".toList]

/-- A cookie whose value holds a tab. -/
def tabValueCookie : Cookie :=
  { Domain := ".a.com".toList, Path := "/p".toList, Name := "n".toList, Value := "v\tw".toList,
    Secure := true, HttpOnly := true, Expires := timeUnix (-5) }

/-- A cookie without tabs or newlines. -/
def plainCookie : Cookie :=
  { Domain := "example.com".toList, Path := "/".toList, Name := "a".toList, Value := "b".toList,
    Secure := false, HttpOnly := false, Expires := timeUnix 1700000000 }

/-- A cookie with an empty path. -/
def emptyPathCookie : Cookie :=
  { Domain := "example.com".toList, Path := [], Name := "a".toList, Value := "b".toList,
    Secure := false, HttpOnly := false, Expires := timeUnix 0 }

/-- The state a scanner is in between two calls of `Scan` on a well-behaved reader:
the reader reports the end of input after its bytes and delivers no empty chunk,
the window lies within the buffer, the buffer is no longer than the maximal token
size, and the only error recorded is the end of input. -/
def ScanInv (s : Scanner) : Prop :=
  s.r.fail = none ∧ (∀ b ∈ s.r.sched, 0 < b) ∧ s.start + s.win.length ≤ s.bufLen ∧
    s.bufLen ≤ maxScanTokenSize ∧ (s.err = none ∨ (s.err = some .eof ∧ s.r.data = []))

/-- The shift of the window to the beginning of the buffer in `Scan`. -/
def Scanner.compact (s : Scanner) : Scanner :=
  if s.start > 0 ∧ (s.endIdx = s.bufLen ∨ s.start > s.bufLen / 2) then { s with start := 0 }
  else s

/-- The resizing of a full buffer in `Scan`. -/
def Scanner.grow (s : Scanner) : Scanner :=
  if s.endIdx = s.bufLen then
    { s with
      bufLen := min (if s.bufLen * 2 = 0 then startBufSize else s.bufLen * 2) maxScanTokenSize,
      start := 0 }
  else s

/-- The first line of a stream and what follows it: up to the first newline, or
the whole stream when it holds bytes and no newline. -/
def cutLine (rem : Str) : Option (Str × Str) :=
  if rem = [] then none
  else
    match cutAt '\n' rem with
    | some (a, b) => some (a, b)
    | none => some (rem, [])

/-- The token of the first line of a stream: the line without a trailing carriage
return. -/
def tokenOf (rem : Str) : Option Str := (cutLine rem).map (fun p => dropCR p.1)

/-- What follows the first line of a stream. -/
def restOf (rem : Str) : Str :=
  match cutLine rem with
  | some p => p.2
  | none => []

/-- The lines of a stream after the current line `cur`: a line ends at each
newline, and bytes after the last newline form a last line. -/
def linesAux : Str → Str → List Str
  | cur, [] => if cur = [] then [] else [cur]
  | cur, c :: cs => if c = '\n' then cur :: linesAux [] cs else linesAux (cur ++ [c]) cs

/-- The lines of a stream, without their newlines, in order. -/
def linesOf (data : Str) : List Str := linesAux [] data

/-- The decoding of lines in order, as the first loop of `ReadFrom` does it: each
line without its trailing carriage return goes through `Unmarshal`; comments and
blank lines are skipped; the first error ends the decoding. -/
def decodeLines : List Str → List Cookie → Except Error (List Cookie)
  | [], acc => .ok acc
  | l :: ls, acc =>
    match Unmarshal (dropCR l) with
    | .error e => .error e
    | .ok none => decodeLines ls acc
    | .ok (some c) => decodeLines ls (acc ++ [c])

/-- The number of bytes of the lines up to and including the first line that fails
to decode, each line counted with its newline. -/
def failOffset : List Str → Option Nat
  | [] => none
  | l :: ls =>
    match Unmarshal (dropCR l) with
    | .error _ => some (l.length + 1)
    | .ok _ => (failOffset ls).map (fun o => o + (l.length + 1))

/-- Every line of the stream is shorter than the maximal token size. -/
def LinesShort (data : Str) : Prop := ∀ l ∈ linesOf data, l.length < maxScanTokenSize

/-- A reader that reports the end of input after its bytes and delivers no empty
chunk. -/
def GoodReader (r : Reader) : Prop := r.fail = none ∧ ∀ b ∈ r.sched, 0 < b

/-- The origin key `ReadFrom` groups a cookie under: secure, the domain with one
leading dot removed, and the path. -/
def originOf (c : Cookie) : originKey :=
  { Secure := c.Secure,
    Domain := if c.Domain.head? = some '.' then c.Domain.tail else c.Domain,
    Path := c.Path }

/-- The URL `ReadFrom` builds for an origin key. -/
def urlOf (k : originKey) : URL :=
  { Scheme := if k.Secure then "https".toList else "http".toList, Host := k.Domain,
    Path := k.Path }

/-- The groups `ReadFrom` collects in `cookiesMap`, from the groups `m`. -/
def groupsFrom (m : GoMap originKey (List Cookie)) (cookies : List Cookie) :
    GoMap originKey (List Cookie) :=
  cookies.foldl (fun m c => mapSet m (originOf c) ((mapGet m (originOf c)).getD [] ++ [c])) m

/-- The jar `ReadFrom` leaves when its first loop collected `cookies`. -/
def jarAfterRead (j : Jar) (cookies : List Cookie) : Jar :=
  { j with
    entries := cookies.foldl insertCookie j.entries
    subJar := j.subJar ++ (groupsFrom [] cookies).map (fun kv => (urlOf kv.1, kv.2)) }

/-- The result of `ReadFrom` when its first loop ended with the count `n` and the
cookies or the decode error `out`. -/
def readOutcome (j : Jar) (n : Nat) : Except Error (List Cookie) → ReadResult
  | .error e => { jar := j, n := n, err := some e, created := [] }
  | .ok cookies => { jar := jarAfterRead j cookies, n := n, err := none, created := [] }

instance (r : Reader) : Decidable (GoodReader r) := by
  unfold GoodReader; infer_instance

instance (data : Str) : Decidable (LinesShort data) := by
  unfold LinesShort; infer_instance

/-- The reader of two cookie lines with one key, delivered in one chunk. -/
def twoLineReader : Reader :=
  { data := "a.com\tFALSE\t/\tFALSE\t0\tn\tv\na.com\tFALSE\t/\tFALSE\t0\tn\tw\n".toList,
    sched := [], fail := none }

/-- The result of `ReadFrom` on a fresh jar and the reader of two lines. -/
def twoLineResult : ReadResult :=
  { jar :=
      { subJar := [({ Scheme := "http".toList, Host := "a.com".toList, Path := "/".toList },
          [oneLineCookie, { oneLineCookie with Value := "w".toList }])],
        autoWritePath := [], writeHeader := false,
        entries := [(keyOf oneLineCookie, { oneLineCookie with Value := "w".toList })] },
    n := 52, err := none, created := [] }

/-- The reader of a cookie line followed by a line that does not decode. -/
def badLineReader : Reader :=
  { data := "a.com\tFALSE\t/\tFALSE\t0\tn\tv\nbad\n".toList, sched := [], fail := none }

/-- The cookies of a list with a given origin key, in the order of the list. -/
def batchOf (cookies : List Cookie) (k : originKey) : List Cookie :=
  cookies.filter (fun c => decide (originOf c = k))

/-- The line `Marshal` returns for a cookie. -/
def marshalLine (c : Cookie) : Str :=
  match Marshal c with
  | .ok line => line
  | .error _ => []

/-- A cookie that survives being written by `WriteTo` and read back by `ReadFrom`:
the path is non-empty; the domain, the path and the name hold no tab; the domain
does not begin with `#` unless the cookie is httpOnly; the expiry is a whole number
of seconds in the `int64` range; no field holds a newline; the value does not end
with a carriage return; and the line of the cookie is shorter than the maximal
token size of the scanner. -/
def Storable (c : Cookie) : Prop :=
  c.Path ≠ [] ∧ '\t' ∉ c.Domain ∧ '\t' ∉ c.Path ∧ '\t' ∉ c.Name ∧
  (c.HttpOnly = false → c.Domain.head? ≠ some '#') ∧ c.Expires.nsec = 0 ∧
  - 2 ^ 63 ≤ c.Expires.sec ∧ c.Expires.sec < 2 ^ 63 ∧
  '\n' ∉ c.Domain ∧ '\n' ∉ c.Path ∧ '\n' ∉ c.Name ∧ '\n' ∉ c.Value ∧
  c.Value.getLast? ≠ some '\r' ∧ (marshalLine c).length < maxScanTokenSize

instance (c : Cookie) : Decidable (Storable c) := by
  unfold Storable; infer_instance

/-- Two records with the same field values, as the claims compare them: equal in
domain, path, name, value, secure and httpOnly, and equal in expires as a timestamp
(the same seconds and the same nanoseconds). -/
def sameFields (a b : Cookie) : Prop :=
  a.Domain = b.Domain ∧ a.Path = b.Path ∧ a.Name = b.Name ∧ a.Value = b.Value ∧
  a.Secure = b.Secure ∧ a.HttpOnly = b.HttpOnly ∧
  a.Expires.sec = b.Expires.sec ∧ a.Expires.nsec = b.Expires.nsec

instance (a b : Cookie) : Decidable (sameFields a b) := by
  unfold sameFields; infer_instance

/-- A cookie with its expiry as the codec returns it: the `time.Unix` of the Unix
seconds of the expiry. -/
def reread (c : Cookie) : Cookie := { c with Expires := timeUnix c.Expires.Unix }

/-- The lines of the header `WriteTo` writes. -/
def headerLines : List Str :=
  ["# Netscape HTTP Cookie File".toList, "# https://curl.se/docs/http-cookies.html".toList, []]

/-! ## Lemmas on splitting -/

theorem cutAt_none_iff (sep : Char) (s : Str) : cutAt sep s = none ↔ sep ∉ s := by
  induction s with
  | nil => simp [cutAt]
  | cons c cs ih =>
    by_cases h : c = sep
    · simp [cutAt, h]
    · cases hc : cutAt sep cs with
      | none => simp [cutAt, h, hc, ih.mp hc, Ne.symm h]
      | some p =>
        have : ¬ sep ∉ cs := fun hn => by simp [ih.mpr hn] at hc
        simp only [not_not] at this
        simp [cutAt, h, hc, this]

theorem cutAt_some (sep : Char) (s a b : Str) (h : cutAt sep s = some (a, b)) :
    s = a ++ sep :: b ∧ sep ∉ a := by
  induction s generalizing a with
  | nil => simp [cutAt] at h
  | cons c cs ih =>
    by_cases hc : c = sep
    · simp [cutAt, hc] at h
      obtain ⟨rfl, rfl⟩ := h
      simp [hc]
    · cases hr : cutAt sep cs with
      | none => simp [cutAt, hc, hr] at h
      | some p =>
        obtain ⟨a', b'⟩ := p
        simp [cutAt, hc, hr] at h
        obtain ⟨rfl, rfl⟩ := h
        obtain ⟨h1, h2⟩ := ih a' hr
        refine ⟨by rw [h1]; simp, ?_⟩
        simp [h2, Ne.symm hc]

theorem cutAt_append (sep : Char) (a b : Str) (h : sep ∉ a) :
    cutAt sep (a ++ sep :: b) = some (a, b) := by
  induction a with
  | nil => simp [cutAt]
  | cons c cs ih =>
    have hc : c ≠ sep := fun e => h (by simp [e])
    have hcs : sep ∉ cs := fun e => h (by simp [e])
    simp [cutAt, hc, ih hcs]

theorem SplitN_length (s : Str) (sep : Char) (n : Nat) :
    (SplitN s sep (n + 1)).length = min (s.count sep + 1) (n + 1) := by
  induction n generalizing s with
  | zero => simp [SplitN]
  | succ n ih =>
    cases hc : cutAt sep s with
    | none =>
      have := (cutAt_none_iff sep s).mp hc
      simp [SplitN, hc, List.count_eq_zero_of_not_mem this]
    | some p =>
      obtain ⟨a, b⟩ := p
      obtain ⟨h1, h2⟩ := cutAt_some sep s a b hc
      simp only [SplitN, hc, List.length_cons, ih b]
      rw [h1, List.count_append, List.count_eq_zero_of_not_mem h2]
      simp
      omega

/-! ## The codec: comments, short lines -/

theorem Unmarshal_comment (line : Str) (h : isCommentOrBlank line) :
    Unmarshal line = .ok none := by
  unfold isCommentOrBlank at h
  unfold Unmarshal
  rw [if_pos]
  rcases h with h | ⟨h1, h2⟩
  · exact Or.inl h
  · exact Or.inr ⟨h1, by simp [h2]⟩

theorem Unmarshal_not_comment (line : Str) (h : ¬ isCommentOrBlank line) :
    (∃ c, Unmarshal line = .ok (some c)) ∨ (∃ e, Unmarshal line = .error e) := by
  have hc : ¬ (line = [] ∨ (HasPrefix line "#".toList = true ∧
      ¬ HasPrefix line httpOnlyMarker = true)) := by
    intro h'
    apply h
    rcases h' with h' | ⟨h1, h2⟩
    · exact Or.inl h'
    · exact Or.inr ⟨h1, by simpa using h2⟩
  unfold Unmarshal
  rw [if_neg hc]
  dsimp only
  by_cases hlen : (SplitN line '\t' 7).length < 7
  · rw [if_pos hlen]; exact Or.inr ⟨_, rfl⟩
  · rw [if_neg hlen]
    cases ParseBool ((SplitN line '\t' 7).getD 1 []) with
    | error e => exact Or.inr ⟨_, rfl⟩
    | ok b1 =>
      cases ParseBool ((SplitN line '\t' 7).getD 3 []) with
      | error e => exact Or.inr ⟨_, rfl⟩
      | ok b2 =>
        cases ParseInt ((SplitN line '\t' 7).getD 4 []) with
        | error e => exact Or.inr ⟨_, rfl⟩
        | ok n => exact Or.inl ⟨_, rfl⟩

/-- C3: `Unmarshal` returns nothing (no record and no error) exactly when the line is
empty or begins with `#` without beginning with `#HttpOnly_`; every other line gives
a record or an error; the empty line and every line beginning with `# `, such as
`# anything`, give nothing. -/
theorem Unmarshal_nothing_iff :
    (∀ line : Str, Unmarshal line = .ok none ↔ isCommentOrBlank line) ∧
    (∀ line : Str, ¬ isCommentOrBlank line →
      (∃ c, Unmarshal line = .ok (some c)) ∨ (∃ e, Unmarshal line = .error e)) ∧
    Unmarshal "".toList = .ok none ∧
    Unmarshal "# anything".toList = .ok none ∧
    (∀ rest : Str, Unmarshal ("# ".toList ++ rest) = .ok none) := by
  refine ⟨fun line => ⟨fun h => ?_, Unmarshal_comment line⟩, Unmarshal_not_comment, by decide,
    by decide, fun rest => Unmarshal_comment _ (Or.inr ⟨by simp [HasPrefix], ?_⟩)⟩
  · by_contra hn
    rcases Unmarshal_not_comment line hn with ⟨c, hc⟩ | ⟨e, he⟩
    · rw [hc] at h; simp at h
    · rw [he] at h; simp at h
  · simp [HasPrefix, httpOnlyMarker, List.isPrefixOf]

theorem Unmarshal_short (line : Str) (hline : ¬ isCommentOrBlank line)
    (htabs : line.count '\t' < 6) :
    Unmarshal line = .error (.notEnoughTokens (line.count '\t' + 1)) := by
  have hc : ¬ (line = [] ∨ (HasPrefix line "#".toList = true ∧
      ¬ HasPrefix line httpOnlyMarker = true)) := by
    intro h'
    apply hline
    rcases h' with h' | ⟨h1, h2⟩
    · exact Or.inl h'
    · exact Or.inr ⟨h1, by simpa using h2⟩
  have hlen : (SplitN line '\t' 7).length = line.count '\t' + 1 := by
    rw [SplitN_length]; omega
  unfold Unmarshal
  rw [if_neg hc]
  simp only
  rw [if_pos (by rw [hlen]; omega), hlen]

/-- C4: a line that is no comment or blank and holds fewer than 6 tabs is rejected
with the error `not enough tokens k`, where `k` is the number of tabs plus one. -/
theorem Unmarshal_not_enough_tokens (line : Str) (hline : ¬ isCommentOrBlank line)
    (htabs : line.count '\t' < 6) :
    Unmarshal line = .error (.notEnoughTokens (line.count '\t' + 1)) :=
  Unmarshal_short line hline htabs

/-- Witness of C4 on the line `a<TAB>b<TAB>c`: the error reports 3 fields, and its
message is `not enough tokens 3`. -/
theorem Unmarshal_not_enough_tokens_witness :
    Unmarshal "a\tb\tc".toList = .error (.notEnoughTokens 3) ∧
    notEnoughTokensMessage 3 = "not enough tokens 3".toList :=
  ⟨Unmarshal_not_enough_tokens "a\tb\tc".toList (by decide) (by decide), by decide⟩

/-! ## Decimal numerals -/

theorem formatBits_eq (fuel n : Nat) (acc : Str) (h : n < 10 ^ fuel) (hf : 0 < fuel) :
    formatBits fuel n acc = decimalNat n ++ acc := by
  induction fuel generalizing n acc with
  | zero => omega
  | succ fuel ih =>
    unfold formatBits
    by_cases h10 : n < 10
    · rw [if_pos h10]
      by_cases h0 : n = 0
      · subst h0; simp [decimalNat, digitChar]
      · have : Nat.digits 10 n = [n] := Nat.digits_of_lt 10 n h0 h10
        simp [decimalNat, h0, this]
    · rw [if_neg h10]
      have hlt : n / 10 < 10 ^ fuel := by
        rw [Nat.div_lt_iff_lt_mul (by norm_num)]
        rw [pow_succ] at h; exact h
      have h0 : n ≠ 0 := by omega
      have hd0 : n / 10 ≠ 0 := by omega
      have hfuel : 0 < fuel := by
        rcases Nat.eq_zero_or_pos fuel with hz | hp
        · subst hz; simp at hlt; omega
        · exact hp
      rw [ih (n / 10) _ hlt hfuel]
      have hd : Nat.digits 10 n = (n % 10) :: Nat.digits 10 (n / 10) :=
        Nat.digits_def' (by norm_num) (by omega)
      simp [decimalNat, h0, hd0, hd]

theorem FormatInt_eq (i : Int) : FormatInt i = decimalInt i := by
  have h : i.natAbs < 10 ^ (i.natAbs + 1) :=
    lt_of_lt_of_le (Nat.lt_pow_self (by norm_num) _) (Nat.pow_le_pow_right (by norm_num) (by omega))
  unfold FormatInt decimalInt
  rw [formatBits_eq _ _ _ h (by omega), List.append_nil]

theorem Join_seven (f1 f2 f3 f4 f5 f6 f7 : Str) :
    Join [f1, f2, f3, f4, f5, f6, f7] "\t".toList = sevenFields f1 f2 f3 f4 f5 f6 f7 := by
  simp [Join, sevenFields]

theorem ToUpper_FormatBool (b : Bool) : ToUpper (FormatBool b) = boolLiteral b := by
  cases b <;> decide

theorem Marshal_ok (c : Cookie) : Marshal c = .ok (cookieLine c) := by
  unfold cookieLine
  have hdot : HasPrefix c.Domain ".".toList = decide (c.Domain.head? = some '.') := by
    cases hd : c.Domain with
    | nil => simp [HasPrefix]
    | cons a l =>
      by_cases h : a = '.'
      · subst h; simp [HasPrefix, List.isPrefixOf]
      · have h2 : ¬ ('.' = a) := fun e => h e.symm
        simp [HasPrefix, List.isPrefixOf, h, h2]
  unfold Marshal
  simp only [Join_seven, ToUpper_FormatBool, FormatInt_eq, hdot, boolLiteral, httpOnlyMarker,
    Time.Unix, decide_eq_true_eq]

/-- C8: for every cookie `Marshal` returns no error and the line of seven fields
joined by single tabs: the domain (after `#HttpOnly_` when httpOnly), `TRUE` or
`FALSE` for a leading dot of the cookie's own domain, the path (`/` when empty),
`TRUE` or `FALSE` for secure, the Unix seconds of the expiry as a decimal numeral
(with a minus sign when negative), the name and the value. -/
theorem Marshal_line (c : Cookie) :
    Marshal c = .ok (sevenFields
      (if c.HttpOnly then "#HttpOnly_".toList ++ c.Domain else c.Domain)
      (if c.Domain.head? = some '.' then "TRUE".toList else "FALSE".toList)
      (if c.Path = [] then "/".toList else c.Path)
      (if c.Secure then "TRUE".toList else "FALSE".toList)
      (decimalInt c.Expires.sec)
      c.Name
      c.Value) :=
  Marshal_ok c

/-! ## The entry table -/

theorem mapGet_mapSet {κ ν : Type} [DecidableEq κ] (m : GoMap κ ν) (k k' : κ) (v : ν) :
    mapGet (mapSet m k v) k' = if k = k' then some v else mapGet m k' := by
  induction m with
  | nil => simp [mapSet, mapGet]
  | cons p rest ih =>
    obtain ⟨k0, v0⟩ := p
    by_cases h0 : k0 = k
    · subst h0
      by_cases h1 : k0 = k' <;> simp [mapSet, mapGet, h1]
    · by_cases h1 : k0 = k'
      · subst h1
        simp [mapSet, mapGet, h0, Ne.symm h0]
      · simp [mapSet, mapGet, h0, h1, ih]

theorem putCookie_entries (j : Jar) (c : Cookie) :
    (putCookie j c).1 = { j with entries := insertCookie j.entries c } := by
  unfold putCookie insertCookie
  dsimp only
  generalize mapGet j.entries (keyOf c) = o
  cases o with
  | none => rfl
  | some e => dsimp only; split_ifs <;> rfl

theorem putAll_jar (j : Jar) (m : Bool) (cs : List Cookie) :
    (putAll j m cs).1 = { j with entries := cs.foldl insertCookie j.entries } := by
  induction cs generalizing j m with
  | nil => rfl
  | cons c rest ih =>
    have h := putCookie_entries j c
    unfold putAll
    rw [show putCookie j c = ((putCookie j c).1, (putCookie j c).2) from rfl]
    dsimp only
    rw [ih, h]
    rfl

theorem mapGet_foldl_insert (m : GoMap entryKey Cookie) (cs : List Cookie) (k : entryKey) :
    mapGet (cs.foldl insertCookie m) k =
      match cs.reverse.find? (fun c => keyOf c = k) with
      | some c => some c
      | none => mapGet m k := by
  induction cs generalizing m with
  | nil => simp
  | cons c rest ih =>
    rw [List.foldl_cons, ih, List.reverse_cons, List.find?_append]
    cases hr : rest.reverse.find? (fun c => keyOf c = k) with
    | some c' => simp
    | none =>
      by_cases hk : keyOf c = k
      · simp [insertCookie, mapGet_mapSet, hk]
      · simp [insertCookie, mapGet_mapSet, hk]

/-- The flag of `putCookie`: true exactly when the table holds no record under the
cookie's key, or the record it holds differs from the cookie in `Secure`, in
`Expires` as Go `==` compares it, or in `Value`. -/
theorem putCookie_true_iff (j : Jar) (c : Cookie) :
    (putCookie j c).2 = true ↔
      (mapGet j.entries (keyOf c) = none ∨
        ∃ e, mapGet j.entries (keyOf c) = some e ∧
          (e.Secure ≠ c.Secure ∨ e.Expires ≠ c.Expires ∨ e.Value ≠ c.Value)) := by
  unfold putCookie
  dsimp only
  generalize mapGet j.entries (keyOf c) = o
  cases o with
  | none => simp
  | some e =>
    dsimp only
    by_cases h : e.Secure = c.Secure ∧ e.Expires = c.Expires ∧ e.Value = c.Value
    · rw [if_pos h]
      obtain ⟨h1, h2, h3⟩ := h
      simp [h1, h2, h3]
    · rw [if_neg h]
      simp only [true_iff]
      refine Or.inr ⟨e, rfl, ?_⟩
      by_contra hn
      push_neg at hn
      exact h hn

/-- C10: after `SetCookies(u, cs)` the table is the table before with every cookie
of `cs` inserted in batch order under its key; so a key occurring in `cs` holds the
last cookie of `cs` with that key and every other key is unchanged; and the delegate
jar has received exactly one more call, carrying `u` and `cs`. This holds whatever
`os.Create` returns. -/
theorem SetCookies_entries (j : Jar) (create : Str → Except Error File) (u : URL)
    (cs : List Cookie) :
    (SetCookies j create u cs).jar.entries = cs.foldl insertCookie j.entries ∧
    (∀ k : entryKey, mapGet (SetCookies j create u cs).jar.entries k =
      match cs.reverse.find? (fun c => keyOf c = k) with
      | some c => some c
      | none => mapGet j.entries k) ∧
    (SetCookies j create u cs).jar.subJar = j.subJar ++ [(u, cs)] := by
  have hjar : (SetCookies j create u cs).jar =
      { j with subJar := j.subJar ++ [(u, cs)], entries := cs.foldl insertCookie j.entries } := by
    unfold SetCookies
    dsimp only
    rw [show putAll { j with subJar := j.subJar ++ [(u, cs)] } false cs =
      ((putAll { j with subJar := j.subJar ++ [(u, cs)] } false cs).1,
       (putAll { j with subJar := j.subJar ++ [(u, cs)] } false cs).2) from rfl]
    dsimp only
    rw [putAll_jar]
    split_ifs
    · split
      · rfl
      · split <;> rfl
    · rfl
  rw [hjar]
  exact ⟨rfl, fun k => mapGet_foldl_insert _ _ _, rfl⟩

/-! ## Fields of a line -/

theorem cutAt_none_fields (s : Str) (h : cutAt '\t' s = none) :
    s.takeWhile (fun c => c != '\t') = s ∧ afterTab s = [] := by
  have hn := (cutAt_none_iff '\t' s).mp h
  have h1 : s.takeWhile (fun c => c != '\t') = s := by
    rw [List.takeWhile_eq_self_iff]
    intro c hc
    have : c ≠ '\t' := fun e => hn (e ▸ hc)
    simpa using this
  have h2 : s.dropWhile (fun c => c != '\t') = [] := by
    rw [List.dropWhile_eq_nil_iff]
    intro c hc
    have : c ≠ '\t' := fun e => hn (e ▸ hc)
    simpa using this
  exact ⟨h1, by simp [afterTab, h2]⟩

theorem cutAt_some_fields (s a b : Str) (h : cutAt '\t' s = some (a, b)) :
    s.takeWhile (fun c => c != '\t') = a ∧ afterTab s = b := by
  obtain ⟨h1, h2⟩ := cutAt_some '\t' s a b h
  subst h1
  have ha : ∀ c ∈ a, (c != '\t') = true := by
    intro c hc
    have : c ≠ '\t' := fun e => h2 (e ▸ hc)
    simpa using this
  constructor
  · rw [List.takeWhile_append_of_pos ha]
    simp
  · unfold afterTab
    rw [List.dropWhile_append_of_pos ha]
    simp

theorem fieldAt_nil (k : Nat) : fieldAt [] k = [] := by
  induction k with
  | zero => rfl
  | succ k ih => simpa [fieldAt, afterTab] using ih

theorem SplitN_getD_field (s : Str) (n i : Nat) (h : i < n) :
    (SplitN s '\t' (n + 1)).getD i [] = fieldAt s i := by
  induction n generalizing s i with
  | zero => omega
  | succ n ih =>
    cases hc : cutAt '\t' s with
    | none =>
      obtain ⟨h1, h2⟩ := cutAt_none_fields s hc
      cases i with
      | zero => simp [SplitN, hc, fieldAt, h1]
      | succ i => simp [SplitN, hc, fieldAt, h2, fieldAt_nil]
    | some p =>
      obtain ⟨a, b⟩ := p
      obtain ⟨h1, h2⟩ := cutAt_some_fields s a b hc
      cases i with
      | zero => simp [SplitN, hc, fieldAt, h1]
      | succ i =>
        simp only [SplitN, hc, List.getD_cons_succ, fieldAt, h2]
        exact ih b i (by omega)

theorem count_afterTab (s : Str) (h : 0 < s.count '\t') :
    (afterTab s).count '\t' + 1 = s.count '\t' := by
  cases hc : cutAt '\t' s with
  | none =>
    have := (cutAt_none_iff '\t' s).mp hc
    rw [List.count_eq_zero_of_not_mem this] at h
    omega
  | some p =>
    obtain ⟨a, b⟩ := p
    obtain ⟨h1, h2⟩ := cutAt_some '\t' s a b hc
    rw [(cutAt_some_fields s a b hc).2]
    rw [h1, List.count_append, List.count_eq_zero_of_not_mem h2]
    simp

theorem SplitN_getD_last (s : Str) (n : Nat) (h : n ≤ s.count '\t') :
    (SplitN s '\t' (n + 1)).getD n [] = afterTabs s n := by
  induction n generalizing s with
  | zero => simp [SplitN, afterTabs]
  | succ n ih =>
    cases hc : cutAt '\t' s with
    | none =>
      have := (cutAt_none_iff '\t' s).mp hc
      rw [List.count_eq_zero_of_not_mem this] at h
      omega
    | some p =>
      obtain ⟨a, b⟩ := p
      obtain ⟨h1, h2⟩ := cutAt_some_fields s a b hc
      have hcount := count_afterTab s (by omega)
      rw [h2] at hcount
      simp only [SplitN, hc, List.getD_cons_succ, afterTabs, h2]
      exact ih b (by omega)

theorem HasPrefix_dot (d : Str) : HasPrefix d ".".toList = decide (d.head? = some '.') := by
  cases d with
  | nil => simp [HasPrefix]
  | cons a l =>
    by_cases h : a = '.'
    · subst h; simp [HasPrefix, List.isPrefixOf]
    · have h2 : ¬ ('.' = a) := fun e => h e.symm
      simp [HasPrefix, List.isPrefixOf, h, h2]

theorem HasPrefix_iff (s p : Str) : HasPrefix s p = true ↔ ∃ d, s = p ++ d := by
  unfold HasPrefix
  rw [List.isPrefixOf_iff_prefix]
  constructor
  · rintro ⟨d, hd⟩; exact ⟨d, hd.symm⟩
  · rintro ⟨d, hd⟩; exact ⟨d, hd.symm⟩

theorem stripMarker_append (d : Str) : stripMarker ("#HttpOnly_".toList ++ d) = d := by
  have h : "#HttpOnly_".toList.isPrefixOf ("#HttpOnly_".toList ++ d) = true := by
    rw [List.isPrefixOf_iff_prefix]; exact ⟨d, rfl⟩
  unfold stripMarker
  rw [if_pos h]
  exact List.drop_left "#HttpOnly_".toList d

theorem stripMarker_of_not (f : Str) (h : HasPrefix f httpOnlyMarker = false) :
    stripMarker f = f := by
  unfold stripMarker
  rw [if_neg]
  intro h2
  have h3 : HasPrefix f httpOnlyMarker = true := h2
  rw [h] at h3
  exact Bool.false_ne_true h3

theorem stripMarker_eq (f : Str) :
    (if HasPrefix f httpOnlyMarker = true then f.drop httpOnlyMarker.length else f) =
      stripMarker f := rfl

theorem dotNormalize_eq (flag : Bool) (d : Str) :
    (if flag = true then
        if ¬ HasPrefix d ".".toList = true then ".".toList ++ d else d
      else
        if HasPrefix d ".".toList = true then d.drop 1 else d) = dotNormalize flag d := by
  rw [HasPrefix_dot]
  cases d with
  | nil => cases flag <;> simp [dotNormalize]
  | cons a l =>
    by_cases h : a = '.'
    · subst h; cases flag <;> simp [dotNormalize]
    · cases flag <;> simp [dotNormalize, h]

/-- The function `Unmarshal` on a line that is no comment or blank and has at least
seven fields, in terms of the fields of the line. -/
theorem Unmarshal_fields (line : Str) (hline : ¬ isCommentOrBlank line)
    (htabs : 6 ≤ line.count '\t') :
    Unmarshal line =
      match ParseBool (fieldAt line 1) with
      | .error e => .error e
      | .ok flag =>
        match ParseBool (fieldAt line 3) with
        | .error e => .error e
        | .ok secure =>
          match ParseInt (fieldAt line 4) with
          | .error e => .error e
          | .ok expires => .ok (some (recordOf line flag secure expires)) := by
  have hc : ¬ (line = [] ∨ (HasPrefix line "#".toList = true ∧
      ¬ HasPrefix line httpOnlyMarker = true)) := by
    intro h'
    apply hline
    rcases h' with h' | ⟨h1, h2⟩
    · exact Or.inl h'
    · exact Or.inr ⟨h1, by simpa using h2⟩
  have hlen : ¬ (SplitN line '\t' 7).length < 7 := by
    rw [SplitN_length]; omega
  unfold Unmarshal
  rw [if_neg hc]
  dsimp only
  rw [if_neg hlen, SplitN_getD_field line 6 0 (by omega), SplitN_getD_field line 6 1 (by omega),
    SplitN_getD_field line 6 2 (by omega), SplitN_getD_field line 6 3 (by omega),
    SplitN_getD_field line 6 4 (by omega), SplitN_getD_field line 6 5 (by omega),
    SplitN_getD_last line 6 htabs]
  cases ParseBool (fieldAt line 1) with
  | error e => rfl
  | ok flag =>
    cases ParseBool (fieldAt line 3) with
    | error e => rfl
    | ok secure =>
      cases ParseInt (fieldAt line 4) with
      | error e => rfl
      | ok expires =>
        dsimp only
        rw [stripMarker_eq, dotNormalize_eq]
        rfl

/-- A line decoded to a record is no comment or blank and has at least seven
fields. -/
theorem Unmarshal_some_line (line : Str) (c : Cookie) (h : Unmarshal line = .ok (some c)) :
    ¬ isCommentOrBlank line ∧ 6 ≤ line.count '\t' := by
  constructor
  · intro hc
    rw [Unmarshal_comment line hc] at h
    simp at h
  · by_contra hn
    by_cases hc : isCommentOrBlank line
    · rw [Unmarshal_comment line hc] at h
      simp at h
    · rw [Unmarshal_short line hc (by omega)] at h
      simp at h

/-- A line decoded to a record: its fields 2, 4 and 5 parsed, and the record is the
one of those fields. -/
theorem Unmarshal_some (line : Str) (c : Cookie) (h : Unmarshal line = .ok (some c)) :
    ∃ flag secure expires, ParseBool (fieldAt line 1) = .ok flag ∧
      ParseBool (fieldAt line 3) = .ok secure ∧ ParseInt (fieldAt line 4) = .ok expires ∧
      c = recordOf line flag secure expires := by
  obtain ⟨h1, h2⟩ := Unmarshal_some_line line c h
  rw [Unmarshal_fields line h1 h2] at h
  cases hf : ParseBool (fieldAt line 1) with
  | error e => rw [hf] at h; simp at h
  | ok flag =>
    cases hs : ParseBool (fieldAt line 3) with
    | error e => rw [hf, hs] at h; simp at h
    | ok secure =>
      cases he : ParseInt (fieldAt line 4) with
      | error e => rw [hf, hs, he] at h; simp at h
      | ok expires =>
        rw [hf, hs, he] at h
        simp only [Except.ok.injEq, Option.some.injEq] at h
        exact ⟨flag, secure, expires, rfl, rfl, rfl, h.symm⟩

/-! ## The decoded domain -/

theorem dotNormalize_head (flag : Bool) (d : Str) :
    (dotNormalize flag d).head? = some '.' ↔
      (flag = true ∨ ∃ rest, d = '.' :: '.' :: rest) := by
  cases d with
  | nil => cases flag <;> simp [dotNormalize]
  | cons a l =>
    by_cases h : a = '.'
    · subst h
      cases flag
      · cases l with
        | nil => simp [dotNormalize]
        | cons b l' => simp [dotNormalize]
      · simp [dotNormalize]
    · cases flag <;> simp [dotNormalize, h]

/-- C6, as the code has it: for a line decoded to a record, the domain is field 1
(without the HttpOnly marker) with a leading dot added when field 2 parsed as
true and the dot is missing, and with one leading dot removed when field 2 parsed
as false; so the domain begins with a dot exactly when field 2 parsed as true or
field 1 (without the marker) begins with two dots. -/
theorem Unmarshal_domain_dot (line : Str) (c : Cookie) (h : Unmarshal line = .ok (some c)) :
    ∃ flag, ParseBool (fieldAt line 1) = .ok flag ∧
      c.Domain = dotNormalize flag (stripMarker (fieldAt line 0)) ∧
      (c.Domain.head? = some '.' ↔
        (flag = true ∨ ∃ rest, stripMarker (fieldAt line 0) = '.' :: '.' :: rest)) := by
  obtain ⟨flag, secure, expires, h1, _, _, hc⟩ := Unmarshal_some line c h
  refine ⟨flag, h1, by rw [hc]; rfl, ?_⟩
  rw [hc]
  exact dotNormalize_head flag _

/-- Witness of C6 on the two lines of the claim: `example.com` with the flag `TRUE`
gives the domain `.example.com`, and `.example.com` with the flag `FALSE` gives
the domain `example.com`. -/
theorem Unmarshal_domain_dot_witness :
    (∃ flag, ParseBool (fieldAt "example.com\tTRUE\t/\tFALSE\t0\ta\tb".toList 1) = .ok flag ∧
      ".example.com".toList =
        dotNormalize flag (stripMarker (fieldAt "example.com\tTRUE\t/\tFALSE\t0\ta\tb".toList 0)) ∧
      (".example.com".toList.head? = some '.' ↔
        (flag = true ∨ ∃ rest,
          stripMarker (fieldAt "example.com\tTRUE\t/\tFALSE\t0\ta\tb".toList 0) =
            '.' :: '.' :: rest))) ∧
    Unmarshal ".example.com\tFALSE\t/\tFALSE\t0\ta\tb".toList = .ok (some
      { Domain := "example.com".toList, HttpOnly := false, Path := "/".toList, Secure := false,
        Expires := timeUnix 0, Name := "a".toList, Value := "b".toList }) :=
  ⟨Unmarshal_domain_dot "example.com\tTRUE\t/\tFALSE\t0\ta\tb".toList
      { Domain := ".example.com".toList, HttpOnly := false, Path := "/".toList, Secure := false,
        Expires := timeUnix 0, Name := "a".toList, Value := "b".toList }
      (by decide),
    by decide⟩

/-- Counterexample to C6 as stated: the line `..example.com<TAB>FALSE<TAB>/...` is
decoded to a record, its field 2 parses as false, and the domain of the record,
`.example.com`, begins with a dot. -/
theorem Unmarshal_domain_dot_counterexample :
    Unmarshal "..example.com\tFALSE\t/\tFALSE\t0\ta\tb".toList = .ok (some
      { Domain := ".example.com".toList, HttpOnly := false, Path := "/".toList, Secure := false,
        Expires := timeUnix 0, Name := "a".toList, Value := "b".toList }) ∧
    ParseBool (fieldAt "..example.com\tFALSE\t/\tFALSE\t0\ta\tb".toList 1) = .ok false ∧
    HasPrefix ".example.com".toList ".".toList = true := by
  decide

/-- C7: for a line decoded to a record, httpOnly is true exactly when field 1
begins with `#HttpOnly_`; in that case the domain is computed, by the dot
normalization for the parsed field 2, from field 1 with that one marker removed,
and otherwise from field 1 as given. -/
theorem Unmarshal_httpOnly (line : Str) (c : Cookie) (h : Unmarshal line = .ok (some c)) :
    (c.HttpOnly = true ↔ ∃ d, fieldAt line 0 = "#HttpOnly_".toList ++ d) ∧
    ∃ flag, ParseBool (fieldAt line 1) = .ok flag ∧
      (∀ d, fieldAt line 0 = "#HttpOnly_".toList ++ d → c.Domain = dotNormalize flag d) ∧
      (c.HttpOnly = false → c.Domain = dotNormalize flag (fieldAt line 0)) := by
  obtain ⟨flag, secure, expires, h1, _, _, hc⟩ := Unmarshal_some line c h
  have hH : c.HttpOnly = HasPrefix (fieldAt line 0) httpOnlyMarker := by rw [hc]; rfl
  have hD : c.Domain = dotNormalize flag (stripMarker (fieldAt line 0)) := by rw [hc]; rfl
  refine ⟨?_, flag, h1, ?_, ?_⟩
  · rw [hH]; exact HasPrefix_iff _ _
  · intro d hd
    rw [hD, hd, stripMarker_append]
  · intro hf
    rw [hD, stripMarker_of_not _ (by rw [← hH]; exact hf)]

/-- Witness of C7 on the line of the claim: `#HttpOnly_example.com` with the flag
`FALSE` decodes to the domain `example.com` with httpOnly set. -/
theorem Unmarshal_httpOnly_witness :
    (true = true ↔ ∃ d, fieldAt "#HttpOnly_example.com\tFALSE\t/\tFALSE\t0\ta\tb".toList 0 =
      "#HttpOnly_".toList ++ d) ∧
    ∃ flag, ParseBool (fieldAt "#HttpOnly_example.com\tFALSE\t/\tFALSE\t0\ta\tb".toList 1) =
        .ok flag ∧
      (∀ d, fieldAt "#HttpOnly_example.com\tFALSE\t/\tFALSE\t0\ta\tb".toList 0 =
        "#HttpOnly_".toList ++ d → "example.com".toList = dotNormalize flag d) ∧
      (true = false → "example.com".toList =
        dotNormalize flag (fieldAt "#HttpOnly_example.com\tFALSE\t/\tFALSE\t0\ta\tb".toList 0)) :=
  Unmarshal_httpOnly "#HttpOnly_example.com\tFALSE\t/\tFALSE\t0\ta\tb".toList
    { Domain := "example.com".toList, HttpOnly := true, Path := "/".toList, Secure := false,
      Expires := timeUnix 0, Name := "a".toList, Value := "b".toList }
    (by decide)

/-! ## Auto-write and frame of `putCookie` -/

theorem putCookie_flag (j : Jar) (c : Cookie) :
    (putCookie j c).2 = isModification j.entries c := by
  unfold putCookie isModification
  dsimp only
  generalize mapGet j.entries (keyOf c) = o
  cases o with
  | none => rfl
  | some e =>
    dsimp only
    by_cases h : e.Secure = c.Secure ∧ e.Expires = c.Expires ∧ e.Value = c.Value
    · rw [if_pos h]
      obtain ⟨h1, h2, h3⟩ := h
      simp [h1, h2, h3]
    · rw [if_neg h]
      symm
      rw [decide_eq_true_iff]
      by_contra hn
      push_neg at hn
      exact h hn

theorem putAll_flag (j : Jar) (m : Bool) (cs : List Cookie) :
    (putAll j m cs).2 = (m || anyModification j.entries cs) := by
  induction cs generalizing j m with
  | nil => simp [putAll, anyModification]
  | cons c rest ih =>
    unfold putAll
    rw [show putCookie j c = ((putCookie j c).1, (putCookie j c).2) from rfl]
    dsimp only
    rw [ih, putCookie_flag, putCookie_entries]
    simp only [anyModification]
    cases isModification j.entries c <;> cases m <;> simp

theorem SetCookies_created_eq (j : Jar) (create : Str → Except Error File) (u : URL)
    (cs : List Cookie) :
    (SetCookies j create u cs).created =
      if anyModification j.entries cs = true ∧ j.autoWritePath ≠ [] then [j.autoWritePath]
      else [] := by
  unfold SetCookies
  dsimp only
  rw [show putAll { j with subJar := j.subJar ++ [(u, cs)] } false cs =
    ((putAll { j with subJar := j.subJar ++ [(u, cs)] } false cs).1,
     (putAll { j with subJar := j.subJar ++ [(u, cs)] } false cs).2) from rfl]
  dsimp only
  rw [putAll_jar, putAll_flag]
  simp only [Bool.false_or]
  by_cases h : anyModification j.entries cs = true ∧ j.autoWritePath ≠ []
  · rw [if_pos h, if_pos h]
    split
    · rfl
    · split <;> rfl
  · rw [if_neg h, if_neg h]

theorem policyModification_le (m : GoMap entryKey Cookie) (c : Cookie)
    (h : policyModification m c = true) : isModification m c = true := by
  unfold policyModification at h
  unfold isModification
  cases hm : mapGet m (keyOf c) with
  | none => rfl
  | some e =>
    rw [hm] at h
    simp only [decide_eq_true_eq] at h ⊢
    rcases h with h | h | h | h
    · exact Or.inl h
    · exact Or.inr (Or.inl (fun he => h (by rw [he])))
    · exact Or.inr (Or.inl (fun he => h (by rw [he])))
    · exact Or.inr (Or.inr h)

theorem anyPolicyModification_le (m : GoMap entryKey Cookie) (cs : List Cookie)
    (h : anyPolicyModification m cs = true) : anyModification m cs = true := by
  induction cs generalizing m with
  | nil => simp [anyPolicyModification] at h
  | cons c rest ih =>
    simp only [anyPolicyModification, Bool.or_eq_true] at h
    simp only [anyModification, Bool.or_eq_true]
    rcases h with h | h
    · exact Or.inl (policyModification_le m c h)
    · exact Or.inr (ih _ h)

theorem SetCookies_file_eq (j : Jar) (create : Str → Except Error File) (u : URL)
    (cs : List Cookie) :
    (SetCookies j create u cs).file =
      if anyModification j.entries cs = true ∧ j.autoWritePath ≠ [] then
        match create j.autoWritePath with
        | .error _ => none
        | .ok f =>
          some (j.autoWritePath, (unlockedWriteTo (SetCookies j create u cs).jar f.w).1)
      else none := by
  have hjar : (SetCookies j create u cs).jar =
      { j with subJar := j.subJar ++ [(u, cs)], entries := cs.foldl insertCookie j.entries } := by
    unfold SetCookies
    dsimp only
    rw [show putAll { j with subJar := j.subJar ++ [(u, cs)] } false cs =
      ((putAll { j with subJar := j.subJar ++ [(u, cs)] } false cs).1,
       (putAll { j with subJar := j.subJar ++ [(u, cs)] } false cs).2) from rfl]
    dsimp only
    rw [putAll_jar]
    split_ifs
    · split
      · rfl
      · split <;> rfl
    · rfl
  rw [hjar]
  unfold SetCookies
  dsimp only
  rw [show putAll { j with subJar := j.subJar ++ [(u, cs)] } false cs =
    ((putAll { j with subJar := j.subJar ++ [(u, cs)] } false cs).1,
     (putAll { j with subJar := j.subJar ++ [(u, cs)] } false cs).2) from rfl]
  dsimp only
  rw [putAll_jar, putAll_flag]
  simp only [Bool.false_or]
  by_cases h : anyModification j.entries cs = true ∧ j.autoWritePath ≠ []
  · rw [if_pos h, if_pos h]
    cases hc : create j.autoWritePath with
    | error e => rfl
    | ok f =>
      dsimp only
      split <;> simp_all
  · rw [if_neg h, if_neg h]

/-- C9, the code at the failing input: the sample jar holds a record with the expiry
`time.Unix(0, 0)`; `putCookie` of the same cookie with the expiry
`time.Unix(0, 0).UTC()` returns true, although the table holds a record under the
key and that record does not differ from the cookie in secure, in the expiry
timestamp or in value (no modification under the policy). The cause is the
comparison of the two `Expires` with Go `==`, which also compares the location and
the monotonic clock reading: `putCookie` returns true exactly when the table holds
no record under the key or the record differs in secure, in value or in `Expires`
as `==` has it. So every modification under the policy is reported, and some calls
that are none are reported too. -/
theorem putCookie_modified_location :
    (mapGet sampleJar.entries (keyOf utcCookie) = some oneLineCookie ∧
      oneLineCookie.Secure = utcCookie.Secure ∧
      oneLineCookie.Expires.sec = utcCookie.Expires.sec ∧
      oneLineCookie.Expires.nsec = utcCookie.Expires.nsec ∧
      oneLineCookie.Value = utcCookie.Value ∧
      policyModification sampleJar.entries utcCookie = false ∧
      (putCookie sampleJar utcCookie).2 = true) ∧
    (∀ (j : Jar) (c : Cookie), (putCookie j c).2 = true ↔
      (mapGet j.entries (keyOf c) = none ∨
        ∃ e, mapGet j.entries (keyOf c) = some e ∧
          (e.Secure ≠ c.Secure ∨ e.Expires ≠ c.Expires ∨ e.Value ≠ c.Value))) ∧
    (∀ (j : Jar) (c : Cookie), policyModification j.entries c = true →
      (putCookie j c).2 = true) := by
  refine ⟨by decide, putCookie_true_iff, fun j c h => ?_⟩
  rw [putCookie_flag]
  exact policyModification_le _ _ h

/-- C11, the code at the failing input: the sample jar has the auto-write path
`cookies.txt` and holds a record with the expiry `time.Unix(0, 0)`;
`SetCookies` of the same cookie with the expiry `time.Unix(0, 0).UTC()`, which is
stored with identical secure, expiry timestamp and value and so is no modification
under the policy, calls `os.Create` and writes the table to the file: the bytes
`WriteTo` gave before the call. The cause is the comparison of `putCookie` with Go
`==` (see C9). The rest of the claim holds of the code: `os.Create` is called (once,
with the auto-write path) exactly when the path is non-empty and the comparison of
`putCookie` holds for a cookie of the batch, applied in batch order, and then the
file receives what `unlockedWriteTo` writes for the table after the call; so with a
path, a batch with a modification under the policy is written, as is a cookie whose
stored record differs in value; and a cookie whose stored record agrees in secure,
value and `Expires` as `==` has it is not. -/
theorem SetCookies_auto_write :
    (anyPolicyModification sampleJar.entries [utcCookie] = false ∧
      (SetCookies sampleJar createEmpty sampleURL [utcCookie]).created =
        ["cookies.txt".toList] ∧
      (SetCookies sampleJar createEmpty sampleURL [utcCookie]).file =
        some ("cookies.txt".toList,
          { out := "a.com\tFALSE\t/\tFALSE\t0\tn\tv\n".toList, room := none }) ∧
      (WriteTo sampleJar { out := [], room := none }).1.out =
        "a.com\tFALSE\t/\tFALSE\t0\tn\tv\n".toList) ∧
    (∀ (j : Jar) (create : Str → Except Error File) (u : URL) (cs : List Cookie),
      (SetCookies j create u cs).created =
        (if j.autoWritePath ≠ [] ∧ anyModification j.entries cs = true then [j.autoWritePath]
        else []) ∧
      (SetCookies j create u cs).file =
        (if j.autoWritePath ≠ [] ∧ anyModification j.entries cs = true then
          match create j.autoWritePath with
          | .error _ => none
          | .ok f =>
            some (j.autoWritePath, (unlockedWriteTo (SetCookies j create u cs).jar f.w).1)
        else none) ∧
      (j.autoWritePath ≠ [] → anyPolicyModification j.entries cs = true →
        (SetCookies j create u cs).created = [j.autoWritePath])) ∧
    (∀ (j : Jar) (create : Str → Except Error File) (u : URL) (c e : Cookie),
      mapGet j.entries (keyOf c) = some e →
      (e.Secure = c.Secure → e.Expires = c.Expires → e.Value = c.Value →
        (SetCookies j create u [c]).created = []) ∧
      (j.autoWritePath ≠ [] → e.Value ≠ c.Value →
        (SetCookies j create u [c]).created = [j.autoWritePath])) := by
  refine ⟨by decide, fun j create u cs => ⟨?_, ?_, fun hp hm => ?_⟩,
    fun j create u c e he => ⟨fun h1 h2 h3 => ?_, fun hp hv => ?_⟩⟩
  · rw [SetCookies_created_eq]
    by_cases h : anyModification j.entries cs = true ∧ j.autoWritePath ≠ []
    · rw [if_pos h, if_pos ⟨h.2, h.1⟩]
    · rw [if_neg h, if_neg (fun h' => h ⟨h'.2, h'.1⟩)]
  · rw [SetCookies_file_eq]
    by_cases h : anyModification j.entries cs = true ∧ j.autoWritePath ≠ []
    · rw [if_pos h, if_pos ⟨h.2, h.1⟩]
    · rw [if_neg h, if_neg (fun h' => h ⟨h'.2, h'.1⟩)]
  · rw [SetCookies_created_eq, if_pos ⟨anyPolicyModification_le _ _ hm, hp⟩]
  · rw [SetCookies_created_eq, if_neg]
    simp [anyModification, isModification, he, h1, h2, h3]
  · rw [SetCookies_created_eq, if_pos]
    refine ⟨?_, hp⟩
    simp [anyModification, isModification, he, hv]

theorem keys_mapSet {κ ν : Type} [DecidableEq κ] (m : GoMap κ ν) (k : κ) (v : ν) :
    (mapSet m k v).map Prod.fst =
      if k ∈ m.map Prod.fst then m.map Prod.fst else m.map Prod.fst ++ [k] := by
  induction m with
  | nil => simp [mapSet]
  | cons p rest ih =>
    obtain ⟨k0, v0⟩ := p
    by_cases h0 : k0 = k
    · subst h0; simp [mapSet]
    · have h1 : ¬ k = k0 := fun e => h0 e.symm
      simp only [mapSet, if_neg h0, List.map_cons, ih, List.mem_cons, h1, false_or]
      split_ifs <;> simp

theorem keys_mapSet_nodup {κ ν : Type} [DecidableEq κ] (m : GoMap κ ν) (k : κ) (v : ν)
    (h : (m.map Prod.fst).Nodup) : ((mapSet m k v).map Prod.fst).Nodup := by
  rw [keys_mapSet]
  split_ifs with hk
  · exact h
  · rw [List.nodup_append]
    refine ⟨h, by simp, ?_⟩
    intro a ha hb
    simp only [List.mem_singleton] at hb
    subst hb
    exact hk ha

/-- C18: after `putCookie(c)` the table maps the key of `c` to `c` itself, whatever
the call reports, and every other key to the record it mapped to before; a table
with at most one record per key stays so. In particular the call reports no
modification, and the table maps the key to `c`, for a cookie that agrees with the
stored record in `Secure`, in `Value` and in `Expires` as Go `==` compares it (the
same instant, monotonic clock reading and location), and may differ from it in
httpOnly. -/
theorem putCookie_frame (j : Jar) (c : Cookie) :
    mapGet (putCookie j c).1.entries (keyOf c) = some c ∧
    (∀ k : entryKey, k ≠ keyOf c →
      mapGet (putCookie j c).1.entries k = mapGet j.entries k) ∧
    ((j.entries.map Prod.fst).Nodup → ((putCookie j c).1.entries.map Prod.fst).Nodup) ∧
    (∀ e : Cookie, mapGet j.entries (keyOf c) = some e → e.Secure = c.Secure →
      e.Expires = c.Expires → e.Value = c.Value →
      (putCookie j c).2 = false ∧ mapGet (putCookie j c).1.entries (keyOf c) = some c) := by
  have hget : ∀ k, mapGet (putCookie j c).1.entries k =
      if keyOf c = k then some c else mapGet j.entries k := by
    intro k
    rw [putCookie_entries]
    exact mapGet_mapSet _ _ _ _
  refine ⟨by rw [hget, if_pos rfl], fun k hk => ?_, fun h => ?_, fun e he h1 h2 h3 => ?_⟩
  · rw [hget, if_neg (fun e => hk e.symm)]
  · rw [putCookie_entries]
    exact keys_mapSet_nodup _ _ _ h
  · refine ⟨?_, by rw [hget, if_pos rfl]⟩
    rw [putCookie_flag]
    simp [isModification, he, h1, h2, h3]

/-- Witness of C18: on the sample jar, the stored cookie with httpOnly flipped is
no modification, and is the record stored after the call. -/
theorem putCookie_frame_witness :
    (putCookie sampleJar
      { Domain := "a.com".toList, Path := "/".toList, Name := "n".toList, Value := "v".toList,
        Secure := false, HttpOnly := true, Expires := timeUnix 0 }).2 = false ∧
    mapGet (putCookie sampleJar
      { Domain := "a.com".toList, Path := "/".toList, Name := "n".toList, Value := "v".toList,
        Secure := false, HttpOnly := true, Expires := timeUnix 0 }).1.entries
      { Domain := "a.com".toList, Path := "/".toList, Name := "n".toList } = some
      { Domain := "a.com".toList, Path := "/".toList, Name := "n".toList, Value := "v".toList,
        Secure := false, HttpOnly := true, Expires := timeUnix 0 } :=
  (putCookie_frame sampleJar
    { Domain := "a.com".toList, Path := "/".toList, Name := "n".toList, Value := "v".toList,
      Secure := false, HttpOnly := true, Expires := timeUnix 0 }).2.2.2
    { Domain := "a.com".toList, Path := "/".toList, Name := "n".toList, Value := "v".toList,
      Secure := false, HttpOnly := false, Expires := timeUnix 0 }
    (by decide) (by decide) (by decide) (by decide)

/-! ## `WriteTo` on a writer that accepts everything -/

theorem writeEntries_unbounded (es : List (entryKey × Cookie)) (out : Str) (n : Nat) :
    writeEntries es { out := out, room := none } n =
      ({ out := out ++ tableLines es, room := none }, n + (tableLines es).length, none) := by
  induction es generalizing out n with
  | nil => simp [writeEntries, tableLines]
  | cons kv rest ih =>
    obtain ⟨k, c⟩ := kv
    unfold writeEntries
    rw [Marshal_ok]
    simp only [Writer.Write, ih, tableLines, List.length_append, List.length_cons]
    refine Prod.ext ?_ (Prod.ext ?_ rfl)
    · simp
    · simp; omega

theorem unlockedWriteTo_unbounded (j : Jar) (out : Str) :
    unlockedWriteTo j { out := out, room := none } =
      ({ out := out ++ ((if j.writeHeader then fileHeader else []) ++ tableLines j.entries),
         room := none },
       ((if j.writeHeader then fileHeader else []) ++ tableLines j.entries).length, none) := by
  unfold unlockedWriteTo
  by_cases h : j.writeHeader = true
  · simp only [if_pos h, Writer.Write, writeEntries_unbounded, List.length_append,
      List.append_assoc]
  · simp only [if_neg h, writeEntries_unbounded, List.nil_append, Nat.zero_add]

/-- C16: on a writer that accepts every write in full, `WriteTo` returns a nil error;
the bytes written are the header (exactly when the header flag is on) followed,
for each entry of the table once, in the order the table is visited, by the line
`Marshal` returns for the entry and one newline; and the returned count is the
number of bytes written. The call returns no jar: the table is not changed. -/
theorem WriteTo_unbounded (j : Jar) (out : Str) :
    WriteTo j { out := out, room := none } =
      ({ out := out ++
          ((if j.writeHeader then
              "# Netscape HTTP Cookie File\n# https://curl.se/docs/http-cookies.html\n\n".toList
            else []) ++ tableLines j.entries),
         room := none },
       ((if j.writeHeader then
            "# Netscape HTTP Cookie File\n# https://curl.se/docs/http-cookies.html\n\n".toList
          else []) ++ tableLines j.entries).length,
       none) ∧
    (∀ c : Cookie, Marshal c = .ok (cookieLine c)) :=
  ⟨unlockedWriteTo_unbounded j out, Marshal_ok⟩

/-! ## `ReadFrom`: what it does not do -/

theorem ReadFrom_created (j : Jar) (r : Reader) (res : ReadResult)
    (h : ReadFrom j r = some res) : res.created = [] := by
  unfold ReadFrom at h
  split at h
  · simp at h
  · simp only [Option.some.injEq] at h; rw [← h]
  · simp only [Option.some.injEq] at h; rw [← h]

/-- C15, the code at the failing input: a reader delivers one cookie line and then
fails with an I/O error; the scanner stops with that error recorded, and
`ReadFrom` returns a nil error. -/
theorem ReadFrom_swallows_read_error :
    (readLines 27 (NewScanner { oneLineReader with fail := some (.ioErr "disk".toList) }) []).map
      (fun p => p.1.err) = some (some (.read (.ioErr "disk".toList))) ∧
    (ReadFrom (New none) { oneLineReader with fail := some (.ioErr "disk".toList) }).map
      (fun res => res.err) = some none := by
  decide

/-! ## `ParseInt` and the decimal numerals -/

theorem digitsValueFrom_ge (m : Nat) (ds : Str) : m ≤ digitsValueFrom m ds := by
  induction ds generalizing m with
  | nil => exact le_refl _
  | cons c cs ih =>
    have := ih (m * 10 + (c.toNat - '0'.toNat))
    simp only [digitsValueFrom, List.foldl_cons] at this ⊢
    omega

theorem digitVal_of_digit (c : Char) (h : isDecimalDigit c) :
    digitVal c = some (c.toNat - '0'.toNat) :=
  if_pos h

theorem digitVal_of_not_digit (c : Char) (h : ¬ isDecimalDigit c) : digitVal c = none :=
  if_neg h

theorem parseUintLoop_digits (ds : Str) (m : Nat) (h : ∀ c ∈ ds, isDecimalDigit c)
    (hm : m ≤ 2 ^ 64 - 1) :
    parseUintLoop ds m =
      if digitsValueFrom m ds ≤ 2 ^ 64 - 1 then .val (digitsValueFrom m ds) else .outOfRange := by
  induction ds generalizing m with
  | nil =>
    have : digitsValueFrom m [] = m := rfl
    rw [this, if_pos hm]
    rfl
  | cons c cs ih =>
    have hc : isDecimalDigit c := h c (List.mem_cons_self _ _)
    have hcs : ∀ c ∈ cs, isDecimalDigit c := fun x hx => h x (List.mem_cons_of_mem _ hx)
    have hge := digitsValueFrom_ge (m * 10 + (c.toNat - '0'.toNat)) cs
    have hval : digitsValueFrom m (c :: cs) =
        digitsValueFrom (m * 10 + (c.toNat - '0'.toNat)) cs := rfl
    unfold parseUintLoop
    rw [digitVal_of_digit c hc, hval]
    dsimp only
    by_cases h1 : m ≥ (2 ^ 64 - 1) / 10 + 1
    · rw [if_pos h1, if_neg]
      norm_num at h1 ⊢
      omega
    · rw [if_neg h1]
      by_cases h2 : m * 10 + (c.toNat - '0'.toNat) > 2 ^ 64 - 1
      · rw [if_pos h2, if_neg]
        norm_num at h2 ⊢
        omega
      · rw [if_neg h2]
        exact ih _ hcs (by omega)

theorem parseUintLoop_nondigit (ds : Str) (m : Nat) (h : ¬ ∀ c ∈ ds, isDecimalDigit c) (n : Nat) :
    parseUintLoop ds m ≠ .val n := by
  induction ds generalizing m with
  | nil => simp at h
  | cons c cs ih =>
    unfold parseUintLoop
    by_cases hc : isDecimalDigit c
    · have hcs : ¬ ∀ c ∈ cs, isDecimalDigit c := by
        intro hall
        apply h
        intro x hx
        rcases List.mem_cons.mp hx with rfl | hx
        · exact hc
        · exact hall x hx
      rw [digitVal_of_digit c hc]
      dsimp only
      split_ifs
      · simp
      · simp
      · exact ih _ hcs
    · rw [digitVal_of_not_digit c hc]
      simp

theorem ParseInt_ok_iff (s : Str) (i : Int) :
    ParseInt s = .ok i ↔ int64Numeral s = some i := by
  cases s with
  | nil => simp [ParseInt, int64Numeral]
  | cons c cs =>
    unfold ParseInt int64Numeral
    dsimp only
    generalize hds : (if c = '+' ∨ c = '-' then cs else c :: cs) = ds
    by_cases hnil : ds = []
    · subst hnil
      simp [ParseUint]
    · by_cases hall : ∀ d ∈ ds, isDecimalDigit d
      · have hloop := parseUintLoop_digits ds 0 hall (by norm_num)
        rw [if_pos ⟨hnil, hall⟩]
        unfold ParseUint
        rw [if_neg hnil, hloop]
        by_cases hmax : digitsValueFrom 0 ds ≤ 2 ^ 64 - 1
        · rw [if_pos hmax]
          dsimp only
          by_cases hneg : c = '-'
          · subst hneg
            simp only [decide_True, not_true_eq_false, false_and, if_false, true_and, if_true]
            by_cases hr : digitsValueFrom 0 ds > 2 ^ 63
            · rw [if_pos hr, if_neg]
              · simp
              · norm_num at hr ⊢
                omega
            · rw [if_neg hr, if_pos]
              · simp
              · norm_num at hr ⊢
                omega
          · simp only [hneg, decide_False, Bool.false_eq_true, not_false_eq_true, true_and,
              false_and, if_false]
            by_cases hr : digitsValueFrom 0 ds ≥ 2 ^ 63
            · rw [if_pos hr, if_neg]
              · simp
              · norm_num at hr ⊢
                omega
            · rw [if_neg hr, if_pos]
              · simp
              · norm_num at hr ⊢
                omega
        · rw [if_neg hmax]
          dsimp only
          rw [if_neg]
          · simp
          · norm_num at hmax ⊢
            split_ifs <;> omega
      · have hloop := parseUintLoop_nondigit ds 0 hall
        rw [if_neg (fun h => hall h.2)]
        unfold ParseUint
        rw [if_neg hnil]
        cases hp : parseUintLoop ds 0 with
        | val n => exact absurd hp (hloop n)
        | badSyntax => simp
        | outOfRange => simp

/-! ## Which lines decode to a record -/

theorem ParseBool_ok_iff (s : Str) : (∃ b, ParseBool s = .ok b) ↔ s ∈ boolLiterals := by
  unfold ParseBool boolLiterals
  constructor
  · rintro ⟨b, hb⟩
    split_ifs at hb with h1 h2
    · simp only [List.mem_cons, List.mem_singleton]; tauto
    · simp only [List.mem_cons, List.mem_singleton]; tauto
  · intro h
    simp only [List.mem_cons, List.mem_singleton, List.not_mem_nil, or_false] at h
    split_ifs with h1 h2
    · exact ⟨true, rfl⟩
    · exact ⟨false, rfl⟩
    · exfalso; tauto

theorem ParseInt_ok_iff_numeral (s : Str) :
    (∃ i, ParseInt s = .ok i) ↔ (int64Numeral s).isSome = true := by
  constructor
  · rintro ⟨i, hi⟩
    rw [(ParseInt_ok_iff s i).mp hi]; rfl
  · intro h
    obtain ⟨i, hi⟩ := Option.isSome_iff_exists.mp h
    exact ⟨i, (ParseInt_ok_iff s i).mpr hi⟩

theorem Unmarshal_record_iff_fields (line : Str) (hline : ¬ isCommentOrBlank line)
    (htabs : 6 ≤ line.count '\t') :
    (∃ c, Unmarshal line = .ok (some c)) ↔
      ((∃ b, ParseBool (fieldAt line 1) = .ok b) ∧ (∃ b, ParseBool (fieldAt line 3) = .ok b) ∧
        ∃ i, ParseInt (fieldAt line 4) = .ok i) := by
  constructor
  · rintro ⟨c, hc⟩
    obtain ⟨flag, secure, expires, h1, h2, h3, _⟩ := Unmarshal_some line c hc
    exact ⟨⟨flag, h1⟩, ⟨secure, h2⟩, ⟨expires, h3⟩⟩
  · rintro ⟨⟨flag, h1⟩, ⟨secure, h2⟩, ⟨expires, h3⟩⟩
    refine ⟨recordOf line flag secure expires, ?_⟩
    rw [Unmarshal_fields line hline htabs, h1, h2, h3]

/-- C5, as the code has it: a line that is no comment or blank and has at least 7
tab-separated fields is decoded to a record exactly when field 2 and field 4 are
each one of the literals `strconv.ParseBool` accepts (`1`, `t`, `T`, `TRUE`, `true`,
`True`, `0`, `f`, `F`, `FALSE`, `false`, `False`) and field 5 is a base-10 integer of
the signed 64-bit range (an optional sign `+` or `-`, then decimal digits); in
every other case `Unmarshal` returns an error and no record. -/
theorem Unmarshal_record_iff (line : Str) (hline : ¬ isCommentOrBlank line)
    (htabs : 6 ≤ line.count '\t') :
    ((∃ c, Unmarshal line = .ok (some c)) ↔
      (fieldAt line 1 ∈ boolLiterals ∧ fieldAt line 3 ∈ boolLiterals ∧
        (int64Numeral (fieldAt line 4)).isSome = true)) ∧
    (¬ (fieldAt line 1 ∈ boolLiterals ∧ fieldAt line 3 ∈ boolLiterals ∧
        (int64Numeral (fieldAt line 4)).isSome = true) → ∃ e, Unmarshal line = .error e) := by
  have hiff := Unmarshal_record_iff_fields line hline htabs
  rw [ParseBool_ok_iff, ParseBool_ok_iff, ParseInt_ok_iff_numeral] at hiff
  refine ⟨hiff, fun hn => ?_⟩
  rcases Unmarshal_not_comment line hline with hc | he
  · exact absurd (hiff.mp hc) hn
  · exact he

/-- Witness of C5 on a line with the literals `TRUE` and `FALSE` and the expiry
`0`. -/
theorem Unmarshal_record_iff_witness :
    ((∃ c, Unmarshal "example.com\tTRUE\t/\tFALSE\t0\ta\tb".toList = .ok (some c)) ↔
      (fieldAt "example.com\tTRUE\t/\tFALSE\t0\ta\tb".toList 1 ∈ boolLiterals ∧
        fieldAt "example.com\tTRUE\t/\tFALSE\t0\ta\tb".toList 3 ∈ boolLiterals ∧
        (int64Numeral (fieldAt "example.com\tTRUE\t/\tFALSE\t0\ta\tb".toList 4)).isSome = true)) ∧
    (¬ (fieldAt "example.com\tTRUE\t/\tFALSE\t0\ta\tb".toList 1 ∈ boolLiterals ∧
        fieldAt "example.com\tTRUE\t/\tFALSE\t0\ta\tb".toList 3 ∈ boolLiterals ∧
        (int64Numeral (fieldAt "example.com\tTRUE\t/\tFALSE\t0\ta\tb".toList 4)).isSome = true) →
      ∃ e, Unmarshal "example.com\tTRUE\t/\tFALSE\t0\ta\tb".toList = .error e) :=
  Unmarshal_record_iff "example.com\tTRUE\t/\tFALSE\t0\ta\tb".toList (by decide) (by decide)

/-- Counterexample to C5 as stated: the line `a<TAB>true<TAB>/<TAB>1<TAB>+7<TAB>n<TAB>v`
is no comment, has 7 fields and is decoded to a record, though its field 2 is
`true` and its field 4 is `1`, neither of them the literal `TRUE` or `FALSE`. -/
theorem Unmarshal_record_iff_counterexample :
    ¬ isCommentOrBlank "a\ttrue\t/\t1\t+7\tn\tv".toList ∧
    6 ≤ "a\ttrue\t/\t1\t+7\tn\tv".toList.count '\t' ∧
    Unmarshal "a\ttrue\t/\t1\t+7\tn\tv".toList = .ok (some
      { Domain := ".a".toList, HttpOnly := false, Path := "/".toList, Secure := true,
        Expires := timeUnix 7, Name := "n".toList, Value := "v".toList }) ∧
    fieldAt "a\ttrue\t/\t1\t+7\tn\tv".toList 1 = "true".toList ∧
    "true".toList ≠ "TRUE".toList ∧ "true".toList ≠ "FALSE".toList ∧
    fieldAt "a\ttrue\t/\t1\t+7\tn\tv".toList 3 = "1".toList ∧
    "1".toList ≠ "TRUE".toList ∧ "1".toList ≠ "FALSE".toList := by
  decide

/-! ## Round trip of the codec -/

theorem digitChar_digit (d : Nat) (h : d < 10) :
    isDecimalDigit (digitChar d) ∧ (digitChar d).toNat - '0'.toNat = d := by
  interval_cases d <;> decide

theorem decimalNat_digits (n : Nat) : ∀ c ∈ decimalNat n, isDecimalDigit c := by
  intro c hc
  unfold decimalNat at hc
  split_ifs at hc with h0
  · simp only [List.mem_singleton] at hc
    subst hc
    decide
  · simp only [List.mem_map, List.mem_reverse] at hc
    obtain ⟨d, hd, rfl⟩ := hc
    exact (digitChar_digit d (Nat.digits_lt_base (by norm_num) hd)).1

theorem decimalNat_ne_nil (n : Nat) : decimalNat n ≠ [] := by
  unfold decimalNat
  split_ifs with h0
  · simp
  · simp only [ne_eq, List.map_eq_nil_iff, List.reverse_eq_nil_iff]
    exact fun h => h0 (Nat.digits_eq_nil_iff_eq_zero.mp h)

theorem digitsValueFrom_map (l : List Nat) (m : Nat) (hl : ∀ d ∈ l, d < 10) :
    digitsValueFrom m (l.map digitChar) = l.foldl (fun a d => a * 10 + d) m := by
  induction l generalizing m with
  | nil => rfl
  | cons d l ih =>
    have hd := (digitChar_digit d (hl d (List.mem_cons_self _ _))).2
    have := ih (m * 10 + d) (fun x hx => hl x (List.mem_cons_of_mem _ hx))
    simp only [digitsValueFrom, List.map_cons, List.foldl_cons] at this ⊢
    rw [hd]
    exact this

theorem foldl_reverse_ofDigits (L : List Nat) :
    L.reverse.foldl (fun a d => a * 10 + d) 0 = Nat.ofDigits 10 L := by
  induction L with
  | nil => rfl
  | cons d L ih =>
    rw [List.reverse_cons, List.foldl_append, ih, Nat.ofDigits_cons]
    simp only [List.foldl_cons, List.foldl_nil]
    ring

theorem digitsValueFrom_decimalNat (n : Nat) : digitsValueFrom 0 (decimalNat n) = n := by
  unfold decimalNat
  split_ifs with h0
  · subst h0; rfl
  · rw [digitsValueFrom_map, foldl_reverse_ofDigits, Nat.ofDigits_digits]
    intro d hd
    exact Nat.digits_lt_base (by norm_num) (List.mem_reverse.mp hd)

theorem int64Numeral_decimalInt (i : Int) (h1 : - 2 ^ 63 ≤ i) (h2 : i < 2 ^ 63) :
    int64Numeral (decimalInt i) = some i := by
  unfold decimalInt
  by_cases hneg : i < 0
  · rw [if_pos hneg]
    unfold int64Numeral
    simp only [or_true, if_true, digitsValueFrom_decimalNat]
    rw [if_pos ⟨decimalNat_ne_nil _, decimalNat_digits _⟩]
    have : -(i.natAbs : Int) = i := by omega
    rw [this, if_pos ⟨h1, h2⟩]
  · rw [if_neg hneg]
    cases hd : decimalNat i.natAbs with
    | nil => exact absurd hd (decimalNat_ne_nil _)
    | cons c cs =>
      have hc : isDecimalDigit c := decimalNat_digits i.natAbs c (by rw [hd]; simp)
      have hplus : c ≠ '+' := by rintro rfl; revert hc; decide
      have hminus : c ≠ '-' := by rintro rfl; revert hc; decide
      unfold int64Numeral
      simp only [hplus, hminus, or_self, if_false]
      rw [← hd, digitsValueFrom_decimalNat]
      rw [if_pos ⟨decimalNat_ne_nil _, decimalNat_digits _⟩]
      have : (i.natAbs : Int) = i := by omega
      rw [this, if_pos ⟨h1, h2⟩]

theorem ParseInt_FormatInt (i : Int) (h1 : - 2 ^ 63 ≤ i) (h2 : i < 2 ^ 63) :
    ParseInt (FormatInt i) = .ok i := by
  rw [FormatInt_eq, ParseInt_ok_iff]
  exact int64Numeral_decimalInt i h1 h2

theorem decimalInt_no_tab (i : Int) : '\t' ∉ decimalInt i := by
  have hnat : ∀ n, '\t' ∉ decimalNat n := by
    intro n hmem
    have := decimalNat_digits n _ hmem
    revert this
    decide
  unfold decimalInt
  split_ifs
  · intro hmem
    rcases List.mem_cons.mp hmem with h | h
    · revert h; decide
    · exact hnat _ h
  · exact hnat _

theorem boolLiteral_no_tab (b : Bool) : '\t' ∉ boolLiteral b := by
  cases b <;> decide

theorem ParseBool_boolLiteral (b : Bool) : ParseBool (boolLiteral b) = .ok b := by
  cases b <;> decide

theorem fieldAt_zero_append (a b : Str) (h : '\t' ∉ a) :
    fieldAt (a ++ '\t' :: b) 0 = a ∧ afterTab (a ++ '\t' :: b) = b :=
  cutAt_some_fields _ a b (cutAt_append '\t' a b h)

theorem sevenFields_fields (f1 f2 f3 f4 f5 f6 f7 : Str) (h1 : '\t' ∉ f1) (h2 : '\t' ∉ f2)
    (h3 : '\t' ∉ f3) (h4 : '\t' ∉ f4) (h5 : '\t' ∉ f5) (h6 : '\t' ∉ f6) :
    fieldAt (sevenFields f1 f2 f3 f4 f5 f6 f7) 0 = f1 ∧
    fieldAt (sevenFields f1 f2 f3 f4 f5 f6 f7) 1 = f2 ∧
    fieldAt (sevenFields f1 f2 f3 f4 f5 f6 f7) 2 = f3 ∧
    fieldAt (sevenFields f1 f2 f3 f4 f5 f6 f7) 3 = f4 ∧
    fieldAt (sevenFields f1 f2 f3 f4 f5 f6 f7) 4 = f5 ∧
    fieldAt (sevenFields f1 f2 f3 f4 f5 f6 f7) 5 = f6 ∧
    afterTabs (sevenFields f1 f2 f3 f4 f5 f6 f7) 6 = f7 ∧
    6 ≤ (sevenFields f1 f2 f3 f4 f5 f6 f7).count '\t' := by
  have e1 := fieldAt_zero_append f1 (f2 ++ '\t' :: (f3 ++ '\t' :: (f4 ++ '\t' ::
    (f5 ++ '\t' :: (f6 ++ '\t' :: f7))))) h1
  have e2 := fieldAt_zero_append f2 (f3 ++ '\t' :: (f4 ++ '\t' ::
    (f5 ++ '\t' :: (f6 ++ '\t' :: f7)))) h2
  have e3 := fieldAt_zero_append f3 (f4 ++ '\t' :: (f5 ++ '\t' :: (f6 ++ '\t' :: f7))) h3
  have e4 := fieldAt_zero_append f4 (f5 ++ '\t' :: (f6 ++ '\t' :: f7)) h4
  have e5 := fieldAt_zero_append f5 (f6 ++ '\t' :: f7) h5
  have e6 := fieldAt_zero_append f6 f7 h6
  unfold sevenFields
  refine ⟨e1.1, ?_, ?_, ?_, ?_, ?_, ?_, ?_⟩
  · simp only [fieldAt, e1.2]; exact e2.1
  · simp only [fieldAt, e1.2, e2.2]; exact e3.1
  · simp only [fieldAt, e1.2, e2.2, e3.2]; exact e4.1
  · simp only [fieldAt, e1.2, e2.2, e3.2, e4.2]; exact e5.1
  · simp only [fieldAt, e1.2, e2.2, e3.2, e4.2, e5.2]; exact e6.1
  · simp only [afterTabs, e1.2, e2.2, e3.2, e4.2, e5.2, e6.2]
  · simp only [List.count_append, List.count_cons_self]
    omega

theorem HasPrefix_marker_of_head (d : Str) (h : d.head? ≠ some '#') :
    HasPrefix d httpOnlyMarker = false := by
  cases d with
  | nil => rfl
  | cons a l =>
    have ha : ¬ ('#' = a) := fun e => h (by subst e; rfl)
    simp [HasPrefix, httpOnlyMarker, List.isPrefixOf, ha]

theorem HasPrefix_hash_of_head (d rest : Str) (h : d.head? ≠ some '#') :
    HasPrefix (d ++ '\t' :: rest) "#".toList = false := by
  cases d with
  | nil => simp [HasPrefix, List.isPrefixOf]
  | cons a l =>
    have ha : ¬ ('#' = a) := fun e => h (by subst e; rfl)
    simp [HasPrefix, List.isPrefixOf, ha]

theorem dotNormalize_self (d : Str) : dotNormalize (decide (d.head? = some '.')) d = d := by
  cases d with
  | nil => simp [dotNormalize]
  | cons a l =>
    by_cases h : a = '.'
    · subst h; simp [dotNormalize]
    · simp [dotNormalize, h]

/-- The round trip of the codec: the line of a cookie decodes back to the cookie,
with the expiry the `time.Unix` of its Unix seconds, when the path is non-empty,
the domain, the path and the name hold no tab, the domain does not begin with `#`
unless the cookie is httpOnly, and the seconds of the expiry fit the `int64` of
`Time.Unix`. -/
theorem Unmarshal_cookieLine (r : Cookie) (hpath : r.Path ≠ []) (hd : '\t' ∉ r.Domain)
    (hp : '\t' ∉ r.Path) (hn : '\t' ∉ r.Name)
    (hhash : r.HttpOnly = false → r.Domain.head? ≠ some '#')
    (h1 : - 2 ^ 63 ≤ r.Expires.sec) (h2 : r.Expires.sec < 2 ^ 63) :
    Unmarshal (cookieLine r) = .ok (some (reread r)) := by
  have hf1 : '\t' ∉ (if r.HttpOnly = true then "#HttpOnly_".toList ++ r.Domain else r.Domain) := by
    split_ifs
    · intro hmem
      rcases List.mem_append.mp hmem with h | h
      · revert h; decide
      · exact hd h
    · exact hd
  have hf2 : (if r.Domain.head? = some '.' then "TRUE".toList else "FALSE".toList) =
      boolLiteral (decide (r.Domain.head? = some '.')) := by
    by_cases h : r.Domain.head? = some '.' <;> simp [boolLiteral, h]
  have hf3 : '\t' ∉ (if r.Path = [] then "/".toList else r.Path) := by
    rw [if_neg hpath]; exact hp
  have hf4 : (if r.Secure = true then "TRUE".toList else "FALSE".toList) = boolLiteral r.Secure := rfl
  have hmark : HasPrefix (if r.HttpOnly = true then "#HttpOnly_".toList ++ r.Domain else r.Domain)
      httpOnlyMarker = r.HttpOnly := by
    cases hH : r.HttpOnly with
    | true =>
      rw [if_pos rfl, HasPrefix_iff]
      exact ⟨r.Domain, rfl⟩
    | false =>
      rw [if_neg (by simp)]
      exact HasPrefix_marker_of_head _ (hhash hH)
  have hstrip : stripMarker (if r.HttpOnly = true then "#HttpOnly_".toList ++ r.Domain
      else r.Domain) = r.Domain := by
    cases hH : r.HttpOnly with
    | true => rw [if_pos rfl]; exact stripMarker_append _
    | false =>
      rw [if_neg (by simp)]
      exact stripMarker_of_not _ (HasPrefix_marker_of_head _ (hhash hH))
  obtain ⟨e0, e1, e2, e3, e4, e5, e6, ecount⟩ := sevenFields_fields
    (if r.HttpOnly = true then "#HttpOnly_".toList ++ r.Domain else r.Domain)
    (boolLiteral (decide (r.Domain.head? = some '.')))
    (if r.Path = [] then "/".toList else r.Path)
    (boolLiteral r.Secure)
    (decimalInt r.Expires.sec) r.Name r.Value
    hf1 (boolLiteral_no_tab _) hf3 (boolLiteral_no_tab _) (decimalInt_no_tab _) hn
  have hline : cookieLine r = sevenFields
      (if r.HttpOnly = true then "#HttpOnly_".toList ++ r.Domain else r.Domain)
      (boolLiteral (decide (r.Domain.head? = some '.')))
      (if r.Path = [] then "/".toList else r.Path)
      (boolLiteral r.Secure)
      (decimalInt r.Expires.sec) r.Name r.Value := by
    unfold cookieLine
    rw [hf2, hf4]
  have hnc : ¬ isCommentOrBlank (cookieLine r) := by
    rw [hline]
    unfold isCommentOrBlank sevenFields
    rintro (h | ⟨ha, hb⟩)
    · simp at h
    · cases hH : r.HttpOnly with
      | true =>
        rw [hH, if_pos rfl] at hb
        have : HasPrefix ("#HttpOnly_".toList ++ r.Domain ++ '\t' :: (boolLiteral
            (decide (r.Domain.head? = some '.')) ++ '\t' :: ((if r.Path = [] then "/".toList
            else r.Path) ++ '\t' :: (boolLiteral r.Secure ++ '\t' ::
            (decimalInt r.Expires.sec ++ '\t' :: (r.Name ++ '\t' :: r.Value))))))
            httpOnlyMarker = true := by
          rw [HasPrefix_iff]
          exact ⟨_, List.append_assoc _ _ _⟩
        rw [this] at hb
        exact Bool.noConfusion hb
      | false =>
        rw [hH, if_neg (by simp)] at ha
        rw [HasPrefix_hash_of_head _ _ (hhash hH)] at ha
        exact Bool.noConfusion ha
  rw [Unmarshal_fields _ hnc (by rw [hline]; exact ecount), hline, e1, e3, e4,
    ParseBool_boolLiteral, ParseBool_boolLiteral,
    (ParseInt_ok_iff _ _).mpr (int64Numeral_decimalInt _ h1 h2)]
  dsimp only
  unfold recordOf
  rw [e0, e2, e5, e6, hmark, hstrip, dotNormalize_self, if_neg hpath]
  rfl

theorem sameFields_reread (r : Cookie) (hns : r.Expires.nsec = 0) :
    sameFields (reread r) r ∧ (reread r).Expires = timeUnix r.Expires.Unix ∧
      (r.Expires.mono = none → r.Expires.loc = Location.Local → reread r = r) := by
  obtain ⟨name, value, path, domain, ⟨sec, nsec, mono, loc⟩, secure, httpOnly⟩ := r
  simp only at hns
  subst hns
  refine ⟨⟨rfl, rfl, rfl, rfl, rfl, rfl, rfl, rfl⟩, rfl, fun hm hl => ?_⟩
  simp only at hm hl
  subst hm
  subst hl
  rfl

/-- C20: for every cookie whose path is non-empty, whose domain, path and name hold
no tab, whose domain does not begin with `#` unless the cookie is httpOnly, and
whose expiry is a whole number of seconds (in the `int64` range of `Time.Unix`),
`Marshal` returns a line and `Unmarshal` of that line returns a record equal to the
cookie in domain, path, name, value, secure and httpOnly and, as a timestamp, in
expires; the value is not constrained and may hold tabs. The expiry of the record
is the `time.Unix` of the cookie's Unix seconds, so the record is the cookie itself
when the cookie's expiry has no monotonic clock reading and the location
`time.Local`, as every expiry `Unmarshal` returns has. -/
theorem Unmarshal_Marshal (r : Cookie) (hpath : r.Path ≠ []) (hd : '\t' ∉ r.Domain)
    (hp : '\t' ∉ r.Path) (hn : '\t' ∉ r.Name)
    (hhash : r.HttpOnly = false → r.Domain.head? ≠ some '#')
    (hns : r.Expires.nsec = 0) (h1 : - 2 ^ 63 ≤ r.Expires.sec) (h2 : r.Expires.sec < 2 ^ 63) :
    ∃ line c, Marshal r = .ok line ∧ Unmarshal line = .ok (some c) ∧ sameFields c r ∧
      c.Expires = timeUnix r.Expires.Unix ∧
      (r.Expires.mono = none → r.Expires.loc = Location.Local → c = r) :=
  ⟨cookieLine r, reread r, Marshal_ok r, Unmarshal_cookieLine r hpath hd hp hn hhash h1 h2,
    sameFields_reread r hns⟩

/-- Witness of C20: a cookie whose value holds a tab. -/
theorem Unmarshal_Marshal_witness :
    ∃ line c, Marshal tabValueCookie = .ok line ∧ Unmarshal line = .ok (some c) ∧
      sameFields c tabValueCookie ∧ c.Expires = timeUnix tabValueCookie.Expires.Unix ∧
      (tabValueCookie.Expires.mono = none → tabValueCookie.Expires.loc = Location.Local →
        c = tabValueCookie) :=
  Unmarshal_Marshal tabValueCookie
    (by decide) (by decide) (by decide) (by decide) (by decide) (by decide) (by decide)
    (by decide)

/-- C1, as the code has it: for every cookie whose name and value hold no tab or
newline, and moreover whose path is non-empty, whose domain and path hold no tab,
whose domain does not begin with `#` unless the cookie is httpOnly, and whose
expiry is a whole number of seconds (in the `int64` range of `Time.Unix`),
`Unmarshal(Marshal(r))` succeeds and returns a record equal to the cookie in
domain, path, name, value, secure and httpOnly and, as a timestamp, in expires. The
expiry of the record is the `time.Unix` of the cookie's Unix seconds, so the record
is the cookie itself when the cookie's expiry has no monotonic clock reading and the
location `time.Local`, as every expiry `Unmarshal` returns has. -/
theorem Unmarshal_Marshal_plain (r : Cookie)
    (hname : '\t' ∉ r.Name ∧ '\n' ∉ r.Name) (_hvalue : '\t' ∉ r.Value ∧ '\n' ∉ r.Value)
    (hpath : r.Path ≠ []) (hd : '\t' ∉ r.Domain) (hp : '\t' ∉ r.Path)
    (hhash : r.HttpOnly = false → r.Domain.head? ≠ some '#')
    (hns : r.Expires.nsec = 0) (h1 : - 2 ^ 63 ≤ r.Expires.sec) (h2 : r.Expires.sec < 2 ^ 63) :
    ∃ line c, Marshal r = .ok line ∧ Unmarshal line = .ok (some c) ∧ sameFields c r ∧
      c.Expires = timeUnix r.Expires.Unix ∧
      (r.Expires.mono = none → r.Expires.loc = Location.Local → c = r) :=
  ⟨cookieLine r, reread r, Marshal_ok r, Unmarshal_cookieLine r hpath hd hp hname.1 hhash h1 h2,
    sameFields_reread r hns⟩

/-- Witness of C1. -/
theorem Unmarshal_Marshal_plain_witness :
    ∃ line c, Marshal plainCookie = .ok line ∧ Unmarshal line = .ok (some c) ∧
      sameFields c plainCookie ∧ c.Expires = timeUnix plainCookie.Expires.Unix ∧
      (plainCookie.Expires.mono = none → plainCookie.Expires.loc = Location.Local →
        c = plainCookie) :=
  Unmarshal_Marshal_plain plainCookie
    (by decide) (by decide) (by decide) (by decide) (by decide) (by decide) (by decide)
    (by decide) (by decide)

/-- Counterexample to C1 as stated: a cookie with an empty path, whose name and
value hold no tab or newline, is written with the path `/` and decodes to a
record with the path `/`, which is not the cookie. -/
theorem Unmarshal_Marshal_counterexample :
    ('\t' ∉ emptyPathCookie.Name ∧ '\n' ∉ emptyPathCookie.Name) ∧
    ('\t' ∉ emptyPathCookie.Value ∧ '\n' ∉ emptyPathCookie.Value) ∧
    Marshal emptyPathCookie = .ok "example.com\tFALSE\t/\tFALSE\t0\ta\tb".toList ∧
    Unmarshal "example.com\tFALSE\t/\tFALSE\t0\ta\tb".toList =
      .ok (some { emptyPathCookie with Path := "/".toList }) ∧
    { emptyPathCookie with Path := "/".toList } ≠ emptyPathCookie ∧
    ¬ sameFields { emptyPathCookie with Path := "/".toList } emptyPathCookie := by
  decide

/-! ## The scanner on a well-behaved reader -/

theorem scanLoop_token (fuel : Nat) (s : Scanner) (adv : Nat) (tok : Str)
    (h : s.win ≠ [] ∨ s.err ≠ none)
    (hs : ScanLines s.win (decide (s.err ≠ none)) = (adv, some tok)) :
    Scanner.scanLoop (fuel + 1) s =
      some ({ s with start := s.start + adv, win := s.win.drop adv }, some tok) := by
  unfold Scanner.scanLoop
  simp only [if_pos h, hs]

theorem scanLoop_done (fuel : Nat) (s : Scanner) (adv : Nat)
    (h : s.err ≠ none)
    (hs : ScanLines s.win (decide (s.err ≠ none)) = (adv, none)) :
    Scanner.scanLoop (fuel + 1) s = some ({ s with start := 0, win := [] }, none) := by
  unfold Scanner.scanLoop
  simp only [if_pos (Or.inr h : s.win ≠ [] ∨ s.err ≠ none), hs]
  simp [h]

theorem scanLoop_more (fuel : Nat) (s : Scanner) (herr : s.err = none)
    (hs : s.win = [] ∨ ScanLines s.win false = (0, none))
    (hlong : ¬ (s.compact.endIdx = s.compact.bufLen ∧ s.compact.bufLen ≥ maxScanTokenSize)) :
    Scanner.scanLoop (fuel + 1) s =
      Scanner.scanLoop fuel (Scanner.fill (maxConsecutiveEmptyReads + 1) s.compact.grow) := by
  have hstep : (if s.win ≠ [] ∨ s.err ≠ none then
      (match ScanLines s.win (decide (s.err ≠ none)) with
        | (advance, token) =>
          ({ s with start := s.start + advance, win := s.win.drop advance }, token))
      else (s, none)) = (s, none) := by
    by_cases hw : s.win = []
    · rw [if_neg]
      simp [hw, herr]
    · rw [if_pos (Or.inl hw)]
      have h2 : ScanLines s.win false = (0, none) := hs.resolve_left hw
      simp only [herr, ne_eq, not_true_eq_false, decide_False, h2, Nat.add_zero, List.drop_zero]
      rw [← herr]
  rw [Scanner.scanLoop]
  simp only [hstep]
  rw [if_neg (by simp [herr])]
  unfold Scanner.compact Scanner.grow
  unfold Scanner.compact at hlong
  by_cases hc : s.start > 0 ∧ (s.endIdx = s.bufLen ∨ s.start > s.bufLen / 2)
  · simp only [if_pos hc] at hlong ⊢
    by_cases he : Scanner.endIdx { s with start := 0 } = s.bufLen
    · have hl : ¬ s.bufLen ≥ maxScanTokenSize := fun h => hlong ⟨he, h⟩
      simp only [if_pos he, if_neg hl]
    · simp only [if_neg he]
  · simp only [if_neg hc] at hlong ⊢
    by_cases he : s.endIdx = s.bufLen
    · have hl : ¬ s.bufLen ≥ maxScanTokenSize := fun h => hlong ⟨he, h⟩
      simp only [if_pos he, if_neg hl]
    · simp only [if_neg he]

theorem compact_grow_spec (s : Scanner) (hb : s.start + s.win.length ≤ s.bufLen)
    (hw : s.win.length < maxScanTokenSize) :
    s.compact.grow.r = s.r ∧ s.compact.grow.c = s.c ∧ s.compact.grow.win = s.win ∧
    s.compact.grow.err = s.err ∧
    s.compact.grow.start + s.win.length < s.compact.grow.bufLen ∧
    (s.bufLen ≤ maxScanTokenSize → s.compact.grow.bufLen ≤ maxScanTokenSize) ∧
    ¬ (s.compact.endIdx = s.compact.bufLen ∧ s.compact.bufLen ≥ maxScanTokenSize) := by
  unfold Scanner.compact Scanner.grow Scanner.endIdx maxScanTokenSize startBufSize
  unfold maxScanTokenSize at hw
  by_cases hc : s.start > 0 ∧ (s.start + s.win.length = s.bufLen ∨ s.start > s.bufLen / 2)
  · simp only [Scanner.endIdx, if_pos hc]
    by_cases he : 0 + s.win.length = s.bufLen
    · simp only [if_pos he]
      refine ⟨trivial, trivial, trivial, trivial, ?_, ?_, ?_⟩
      · split_ifs <;> simp only [Nat.lt_min] <;> omega
      · intro _; exact Nat.min_le_right _ _
      · omega
    · simp only [if_neg he]
      refine ⟨trivial, trivial, trivial, trivial, ?_, ?_, ?_⟩
      · omega
      · exact id
      · omega
  · simp only [Scanner.endIdx, if_neg hc]
    by_cases he : s.start + s.win.length = s.bufLen
    · simp only [if_pos he]
      have h0 : s.start = 0 := by
        by_contra h
        exact hc ⟨by omega, Or.inl he⟩
      refine ⟨trivial, trivial, trivial, trivial, ?_, ?_, ?_⟩
      · split_ifs <;> simp only [Nat.lt_min] <;> omega
      · intro _; exact Nat.min_le_right _ _
      · omega
    · simp only [if_neg he]
      refine ⟨trivial, trivial, trivial, trivial, ?_, ?_, ?_⟩
      · omega
      · exact id
      · omega

theorem fill_eof (tries : Nat) (s : Scanner) (hf : s.r.fail = none) (hd : s.r.data = []) :
    Scanner.fill (tries + 1) s = { s with err := some .eof } := by
  rw [Scanner.fill]
  unfold Reader.Read
  simp only [hd, hf]
  simp

theorem fill_data (tries : Nat) (s : Scanner) (hs : ∀ b ∈ s.r.sched, 0 < b)
    (hk : s.endIdx < s.bufLen) (hd : s.r.data ≠ []) :
    ∃ m, 0 < m ∧ m ≤ s.bufLen - s.endIdx ∧
      Scanner.fill (tries + 1) s =
        { s with
          r := { s.r with data := s.r.data.drop m, sched := s.r.sched.tail }
          c := s.c + (s.r.data.take m).length
          win := s.win ++ s.r.data.take m } := by
  have hm : ∃ m, 0 < m ∧ m ≤ s.bufLen - s.endIdx ∧
      (match s.r.sched with
        | [] => s.bufLen - s.endIdx
        | b :: _ => min b (s.bufLen - s.endIdx)) = m := by
    cases hsched : s.r.sched with
    | nil => exact ⟨_, by omega, le_refl _, rfl⟩
    | cons b rest =>
      have hb : 0 < b := hs b (by rw [hsched]; simp)
      exact ⟨_, by simp only [Nat.lt_min]; omega, Nat.min_le_right _ _, rfl⟩
  obtain ⟨m, hm0, hmk, hmeq⟩ := hm
  refine ⟨m, hm0, hmk, ?_⟩
  rw [Scanner.fill]
  unfold Reader.Read
  cases hdata : s.r.data with
  | nil => exact absurd hdata hd
  | cons d ds =>
    simp only [hmeq]
    have hpos : (List.take m (d :: ds)).length > 0 := by
      simp only [List.length_take, List.length_cons]
      omega
    simp only [hpos, if_true]

theorem cutLine_of_cut (win data a b : Str) (h : cutAt '\n' win = some (a, b)) :
    cutLine (win ++ data) = some (a, b ++ data) := by
  obtain ⟨h1, h2⟩ := cutAt_some '\n' win a b h
  have hne : win ++ data ≠ [] := by rw [h1]; simp
  have hcut : cutAt '\n' (win ++ data) = some (a, b ++ data) := by
    rw [h1, List.append_assoc, List.cons_append]
    exact cutAt_append '\n' a (b ++ data) h2
  unfold cutLine
  rw [if_neg hne, hcut]

theorem cutLine_no_newline (win : Str) (h : cutAt '\n' win = none) (hne : win ≠ []) :
    cutLine win = some (win, []) := by
  unfold cutLine
  rw [if_neg hne, h]

theorem ScanLines_cut (win a b : Str) (atEOF : Bool) (h : cutAt '\n' win = some (a, b)) :
    ScanLines win atEOF = (a.length + 1, some (dropCR a)) := by
  have hne : win ≠ [] := by
    rintro rfl
    simp [cutAt] at h
  unfold ScanLines
  rw [if_neg (fun hh => hne hh.2), h]

theorem ScanLines_more (win : Str) (h : cutAt '\n' win = none) :
    win = [] ∨ ScanLines win false = (0, none) := by
  by_cases hne : win = []
  · exact Or.inl hne
  · right
    unfold ScanLines
    simp [h]

theorem ScanLines_eof (win : Str) (h : cutAt '\n' win = none) (hne : win ≠ []) :
    ScanLines win true = (win.length, some (dropCR win)) := by
  unfold ScanLines
  rw [if_neg (fun hh => hne hh.2), h]
  simp

theorem ScanLines_nil : ScanLines [] true = (0, none) := by
  simp [ScanLines]

theorem scanLoop_eof (fuel : Nat) (s : Scanner) (hinv : ScanInv s) (herr : s.err = some .eof)
    (hd : s.r.data = []) :
    ∃ s', Scanner.scanLoop (fuel + 1) s = some (s', tokenOf s.win) ∧ ScanInv s' ∧
      s'.win ++ s'.r.data = restOf s.win ∧ s'.c = s.c ∧ s'.r = s.r := by
  obtain ⟨hfail, hsched, hbound, hcap, _⟩ := hinv
  have hne : s.err ≠ none := by rw [herr]; simp
  have hdec : decide (s.err ≠ none) = true := by simp [hne]
  cases hcut : cutAt '\n' s.win with
  | some p =>
    obtain ⟨a, b⟩ := p
    obtain ⟨h1, _⟩ := cutAt_some '\n' s.win a b hcut
    have hdrop : s.win.drop (a.length + 1) = b := by
      rw [h1, show a ++ '\n' :: b = (a ++ ['\n']) ++ b by simp]
      exact List.drop_left' (by simp)
    have hlen : s.win.length = a.length + 1 + b.length := by rw [h1]; simp; omega
    have hline := cutLine_of_cut s.win [] a b hcut
    simp only [List.append_nil] at hline
    have htok : tokenOf s.win = some (dropCR a) := by simp only [tokenOf, hline, Option.map_some']
    have hrest : restOf s.win = b := by simp only [restOf, hline]
    rw [htok, hrest]
    refine ⟨_, scanLoop_token fuel s _ _ (Or.inr hne) (by rw [hdec]; exact ScanLines_cut _ a b _ hcut),
      ⟨hfail, hsched, ?_, hcap, Or.inr ⟨herr, hd⟩⟩, ?_, rfl, rfl⟩
    · simp only [hdrop]; omega
    · simp only [hdrop, hd, List.append_nil]
  | none =>
    by_cases hw : s.win = []
    · have htok : tokenOf s.win = none := by simp [tokenOf, hw, cutLine]
      have hrest : restOf s.win = [] := by simp [restOf, hw, cutLine]
      rw [htok, hrest]
      refine ⟨_, scanLoop_done fuel s 0 hne (by rw [hdec, hw]; exact ScanLines_nil),
        ⟨hfail, hsched, by simp, hcap, Or.inr ⟨herr, hd⟩⟩, ?_, rfl, rfl⟩
      simp only [hd, List.append_nil]
    · have hdrop : s.win.drop s.win.length = [] := List.drop_length _
      have hline := cutLine_no_newline _ hcut hw
      have htok : tokenOf s.win = some (dropCR s.win) := by
        simp only [tokenOf, hline, Option.map_some']
      have hrest : restOf s.win = [] := by simp only [restOf, hline]
      rw [htok, hrest]
      refine ⟨_, scanLoop_token fuel s _ _ (Or.inr hne)
        (by rw [hdec]; exact ScanLines_eof _ hcut hw),
        ⟨hfail, hsched, ?_, hcap, Or.inr ⟨herr, hd⟩⟩, ?_, rfl, rfl⟩
      · simp only [hdrop, List.length_nil]; omega
      · simp only [hdrop, hd, List.append_nil]

theorem cutAt_append_none (sep : Char) (win data : Str) (h : cutAt sep win = none) :
    cutAt sep (win ++ data) =
      match cutAt sep data with
      | none => none
      | some (a, b) => some (win ++ a, b) := by
  induction win with
  | nil =>
    rw [List.nil_append]
    cases cutAt sep data with
    | none => rfl
    | some p => obtain ⟨a, b⟩ := p; rfl
  | cons c cs ih =>
    by_cases hc : c = sep
    · simp [cutAt, hc] at h
    · cases hcs : cutAt sep cs with
      | some p => simp [cutAt, hc, hcs] at h
      | none =>
        rw [List.cons_append, cutAt, if_neg hc, ih hcs]
        cases cutAt sep data with
        | none => rfl
        | some p => obtain ⟨a, b⟩ := p; rfl

theorem cutLine_first_ge (win data a b : Str) (h : cutAt '\n' win = none)
    (hl : cutLine (win ++ data) = some (a, b)) : win.length ≤ a.length := by
  unfold cutLine at hl
  split_ifs at hl with hnil
  rw [cutAt_append_none _ _ _ h] at hl
  cases hd : cutAt '\n' data with
  | none =>
    rw [hd] at hl
    simp only [Option.some.injEq, Prod.mk.injEq] at hl
    rw [← hl.1]; simp
  | some p =>
    rw [hd] at hl
    simp only [Option.some.injEq, Prod.mk.injEq] at hl
    rw [← hl.1]; simp

theorem scanLoop_spec (k : Nat) : ∀ (s : Scanner) (fuel : Nat), s.r.data.length = k → ScanInv s →
    s.r.data.length + 2 ≤ fuel →
    (∀ a b, cutLine (s.win ++ s.r.data) = some (a, b) → a.length < maxScanTokenSize) →
    ∃ s', Scanner.scanLoop fuel s = some (s', tokenOf (s.win ++ s.r.data)) ∧ ScanInv s' ∧
      s'.win ++ s'.r.data = restOf (s.win ++ s.r.data) ∧
      s'.c + s'.r.data.length = s.c + s.r.data.length := by
  induction k using Nat.strong_induction_on with
  | _ k ih =>
    intro s fuel hk hinv hfuel hshort
    obtain ⟨fuel, rfl⟩ : ∃ f, fuel = f + 1 := ⟨fuel - 1, by omega⟩
    obtain ⟨hfail, hsched, hbound, hcap, herr⟩ := hinv
    rcases herr with herr | ⟨herr, hd⟩
    · cases hcut : cutAt '\n' s.win with
      | some p =>
        obtain ⟨a, b⟩ := p
        obtain ⟨h1, _⟩ := cutAt_some '\n' s.win a b hcut
        have hwne : s.win ≠ [] := by rw [h1]; simp
        have hdrop : s.win.drop (a.length + 1) = b := by
          rw [h1, show a ++ '\n' :: b = (a ++ ['\n']) ++ b by simp]
          exact List.drop_left' (by simp)
        have hlen : s.win.length = a.length + 1 + b.length := by rw [h1]; simp; omega
        have hline := cutLine_of_cut s.win s.r.data a b hcut
        have htok : tokenOf (s.win ++ s.r.data) = some (dropCR a) := by
          simp only [tokenOf, hline, Option.map_some']
        have hrest : restOf (s.win ++ s.r.data) = b ++ s.r.data := by simp only [restOf, hline]
        rw [htok, hrest]
        refine ⟨_, scanLoop_token fuel s _ _ (Or.inl hwne) (ScanLines_cut _ a b _ hcut),
          ⟨hfail, hsched, ?_, hcap, Or.inl herr⟩, ?_, rfl⟩
        · simp only [hdrop]; omega
        · simp only [hdrop]
      | none =>
        have hwlen : s.win.length < maxScanTokenSize := by
          by_cases hrem : s.win ++ s.r.data = []
          · have : s.win = [] := (List.append_eq_nil.mp hrem).1
            rw [this]; decide
          · have hsome : ∃ a b, cutLine (s.win ++ s.r.data) = some (a, b) := by
              unfold cutLine
              rw [if_neg hrem]
              cases cutAt '\n' (s.win ++ s.r.data) with
              | none => exact ⟨_, _, rfl⟩
              | some p => exact ⟨p.1, p.2, rfl⟩
            obtain ⟨a, b, hab⟩ := hsome
            exact lt_of_le_of_lt (cutLine_first_ge _ _ a b hcut hab) (hshort a b hab)
        obtain ⟨g1, g2, g3, g4, g5, g6, g7⟩ := compact_grow_spec s hbound hwlen
        rw [scanLoop_more fuel s herr (ScanLines_more _ hcut) g7]
        by_cases hd : s.r.data = []
        · rw [fill_eof _ _ (by rw [g1]; exact hfail) (by rw [g1]; exact hd)]
          obtain ⟨fuel, rfl⟩ : ∃ f, fuel = f + 1 := ⟨fuel - 1, by omega⟩
          have hinv3 : ScanInv { s.compact.grow with err := some .eof } :=
            ⟨by rw [g1]; exact hfail, by rw [g1]; exact hsched,
              by show s.compact.grow.start + s.compact.grow.win.length ≤ s.compact.grow.bufLen
                 rw [g3]; omega,
              g6 hcap, Or.inr ⟨rfl, by rw [g1]; exact hd⟩⟩
          obtain ⟨s', e1, e2, e3, e4, e5⟩ := scanLoop_eof fuel _ hinv3 rfl (by rw [g1]; exact hd)
          refine ⟨s', ?_, e2, ?_, ?_⟩
          · rw [e1]
            show some (s', tokenOf s.compact.grow.win) = _
            rw [g3, hd, List.append_nil]
          · rw [e3]
            show restOf s.compact.grow.win = _
            rw [g3, hd, List.append_nil]
          · rw [e4, e5]
            show s.compact.grow.c + s.compact.grow.r.data.length = _
            rw [g1, g2]
        · obtain ⟨m, hm0, hmk, hfill⟩ := fill_data maxConsecutiveEmptyReads s.compact.grow
            (by rw [g1]; exact hsched) (by unfold Scanner.endIdx; rw [g3]; exact g5)
            (by rw [g1]; exact hd)
          rw [hfill]
          simp only [g1, g2, g3]
          have hlt : (s.r.data.drop m).length < k := by
            rw [List.length_drop, hk]
            have : 0 < s.r.data.length := List.length_pos.mpr hd
            omega
          have hmk' : m ≤ s.compact.grow.bufLen - (s.compact.grow.start + s.win.length) := by
            unfold Scanner.endIdx at hmk; rw [g3] at hmk; exact hmk
          have hinv3 : ScanInv { s.compact.grow with
              r := { s.r with data := s.r.data.drop m, sched := s.r.sched.tail }
              c := s.c + (s.r.data.take m).length
              win := s.win ++ s.r.data.take m } := by
            refine ⟨hfail, fun b hb => hsched b (List.mem_of_mem_tail hb), ?_, g6 hcap, ?_⟩
            · simp only [List.length_append, List.length_take]
              omega
            · left; rw [← herr]; exact g4
          have hrem3 : (s.win ++ s.r.data.take m) ++ s.r.data.drop m = s.win ++ s.r.data := by
            rw [List.append_assoc, List.take_append_drop]
          obtain ⟨s', e1, e2, e3, e4⟩ := ih _ hlt _ fuel rfl hinv3
            (by simp only [List.length_drop]; omega)
            (by simp only [hrem3]; exact hshort)
          simp only [hrem3] at e1 e3
          refine ⟨s', e1, e2, e3, ?_⟩
          rw [e4]
          simp only [List.length_take, List.length_drop]
          omega
    · obtain ⟨s', e1, e2, e3, e4, e5⟩ := scanLoop_eof fuel s ⟨hfail, hsched, hbound, hcap,
        Or.inr ⟨herr, hd⟩⟩ herr hd
      refine ⟨s', ?_, e2, ?_, ?_⟩
      · rw [e1, hd, List.append_nil]
      · rw [e3, hd, List.append_nil]
      · rw [e4, e5]

/-! ## The lines of a stream and their decoding -/

theorem linesAux_cut (cur a b : Str) (h : '\n' ∉ a) :
    linesAux cur (a ++ '\n' :: b) = (cur ++ a) :: linesAux [] b := by
  induction a generalizing cur with
  | nil => simp [linesAux]
  | cons c cs ih =>
    have hc : c ≠ '\n' := fun e => h (by simp [e])
    have hcs : '\n' ∉ cs := fun e => h (by simp [e])
    rw [List.cons_append, linesAux, if_neg hc, ih _ hcs]
    simp

theorem linesAux_last (cur a : Str) (h : '\n' ∉ a) :
    linesAux cur a = if cur ++ a = [] then [] else [cur ++ a] := by
  induction a generalizing cur with
  | nil => simp [linesAux]
  | cons c cs ih =>
    have hc : c ≠ '\n' := fun e => h (by simp [e])
    have hcs : '\n' ∉ cs := fun e => h (by simp [e])
    rw [linesAux, if_neg hc, ih _ hcs]
    simp

theorem linesOf_cutLine (rem a b : Str) (h : cutLine rem = some (a, b)) :
    linesOf rem = a :: linesOf b ∧ b.length < rem.length ∧
      (rem.length = a.length + 1 + b.length ∨ (b = [] ∧ rem = a)) := by
  unfold cutLine at h
  split_ifs at h with hnil
  cases hc : cutAt '\n' rem with
  | some p =>
    obtain ⟨a', b'⟩ := p
    rw [hc] at h
    simp only [Option.some.injEq, Prod.mk.injEq] at h
    obtain ⟨rfl, rfl⟩ := h
    obtain ⟨h1, h2⟩ := cutAt_some '\n' rem _ _ hc
    refine ⟨?_, ?_, ?_⟩
    · unfold linesOf
      rw [h1, linesAux_cut _ _ _ h2]
      simp
    · rw [h1]; simp; omega
    · left; rw [h1]; simp; omega
  | none =>
    rw [hc] at h
    simp only [Option.some.injEq, Prod.mk.injEq] at h
    obtain ⟨rfl, rfl⟩ := h
    have hn := (cutAt_none_iff '\n' rem).mp hc
    refine ⟨?_, ?_, Or.inr ⟨rfl, rfl⟩⟩
    · unfold linesOf
      rw [linesAux_last _ _ hn]
      simp [hnil, linesAux]
    · simp only [List.length_nil]
      exact List.length_pos.mpr hnil

theorem cutLine_none (rem : Str) (h : cutLine rem = none) : rem = [] := by
  unfold cutLine at h
  split_ifs at h with hnil
  · exact hnil
  · cases hc : cutAt '\n' rem with
    | some p => rw [hc] at h; simp at h
    | none => rw [hc] at h; simp at h

theorem cutLine_cases (rem : Str) : (rem = [] ∧ cutLine rem = none) ∨
    ∃ a b, cutLine rem = some (a, b) := by
  by_cases h : rem = []
  · left; exact ⟨h, by simp [cutLine, h]⟩
  · right
    unfold cutLine
    rw [if_neg h]
    cases cutAt '\n' rem with
    | none => exact ⟨_, _, rfl⟩
    | some p => exact ⟨p.1, p.2, rfl⟩

theorem readLines_spec (k : Nat) : ∀ (s : Scanner) (fuel : Nat) (acc : List Cookie),
    (s.win ++ s.r.data).length = k → ScanInv s → k + 1 ≤ fuel →
    LinesShort (s.win ++ s.r.data) →
    ∃ s', readLines fuel s acc = some (s', decodeLines (linesOf (s.win ++ s.r.data)) acc) ∧
      s'.c + s'.r.data.length = s.c + s.r.data.length ∧
      ((∃ cs, decodeLines (linesOf (s.win ++ s.r.data)) acc = .ok cs) → s'.r.data = []) ∧
      (∀ o, failOffset (linesOf (s.win ++ s.r.data)) = some o →
        min o (s.win ++ s.r.data).length + s'.r.data.length ≤ (s.win ++ s.r.data).length) := by
  induction k using Nat.strong_induction_on with
  | _ k ih =>
    intro s fuel acc hk hinv hfuel hshort
    obtain ⟨fuel, rfl⟩ : ∃ f, fuel = f + 1 := ⟨fuel - 1, by omega⟩
    have hfirst : ∀ a b, cutLine (s.win ++ s.r.data) = some (a, b) →
        a.length < maxScanTokenSize := by
      intro a b hab
      apply hshort
      rw [(linesOf_cutLine _ a b hab).1]
      exact List.mem_cons_self _ _
    obtain ⟨s1, hscan, hinv1, hrest1, hcons1⟩ :=
      scanLoop_spec s.r.data.length s (s.r.data.length + 2) rfl hinv (le_refl _) hfirst
    have hScan : s.Scan = some (s1, tokenOf (s.win ++ s.r.data)) := hscan
    rw [readLines, hScan]
    rcases cutLine_cases (s.win ++ s.r.data) with ⟨hnil, hcl⟩ | ⟨a, b, hcl⟩
    · have htok : tokenOf (s.win ++ s.r.data) = none := by simp only [tokenOf, hcl, Option.map_none']
      have hr : restOf (s.win ++ s.r.data) = [] := by simp only [restOf, hcl]
      rw [hr] at hrest1
      have hd1 : s1.r.data = [] := (List.append_eq_nil.mp hrest1).2
      rw [htok, hnil]
      refine ⟨s1, rfl, hcons1, fun _ => hd1, ?_⟩
      intro o ho
      simp [linesOf, linesAux, failOffset] at ho
    · obtain ⟨hlines, hblt, hlen⟩ := linesOf_cutLine _ a b hcl
      have htok : tokenOf (s.win ++ s.r.data) = some (dropCR a) := by
        simp only [tokenOf, hcl, Option.map_some']
      have hr : restOf (s.win ++ s.r.data) = b := by simp only [restOf, hcl]
      rw [hr] at hrest1
      have hd1 : s1.r.data.length ≤ b.length := by
        rw [← hrest1]; simp
      have hshortb : LinesShort (s1.win ++ s1.r.data) := by
        rw [hrest1]
        intro l hl
        apply hshort
        rw [hlines]
        exact List.mem_cons_of_mem _ hl
      have hfo : ∀ o', failOffset (linesOf b) = some o' →
          ∀ s' : Scanner, min o' b.length + s'.r.data.length ≤ b.length →
          min (o' + (a.length + 1)) (s.win ++ s.r.data).length + s'.r.data.length ≤
            (s.win ++ s.r.data).length := by
        intro o' ho' s' hle
        rcases hlen with hlen | ⟨hb, _⟩
        · rw [hlen]
          simp only [Nat.min_def] at hle ⊢
          split_ifs at hle ⊢ <;> omega
        · rw [hb] at ho'
          simp [linesOf, linesAux, failOffset] at ho'
      rw [htok, hlines]
      simp only [decodeLines, failOffset]
      cases hu : Unmarshal (dropCR a) with
      | error e =>
        refine ⟨s1, rfl, hcons1, ?_, ?_⟩
        · rintro ⟨cs, hcs⟩
          simp at hcs
        · intro o ho
          simp only [Option.some.injEq] at ho
          subst ho
          rcases hlen with hlen | ⟨hb, hra⟩
          · rw [hlen]
            simp only [Nat.min_def]
            split_ifs <;> omega
          · rw [hb] at hd1
            simp only [List.length_nil, Nat.le_zero] at hd1
            rw [hd1]
            simp
      | ok oc =>
        cases oc with
        | none =>
          obtain ⟨s', e1, e2, e3, e4⟩ := ih _ (by rw [hrest1, ← hk]; exact hblt) s1 fuel acc rfl
            hinv1 (by rw [hrest1]; omega) hshortb
          rw [hrest1] at e1 e3 e4
          refine ⟨s', e1, by rw [e2, hcons1], e3, ?_⟩
          intro o ho
          simp only [Option.map_eq_some'] at ho
          obtain ⟨o', ho', rfl⟩ := ho
          exact hfo o' ho' s' (e4 o' ho')
        | some c =>
          obtain ⟨s', e1, e2, e3, e4⟩ := ih _ (by rw [hrest1, ← hk]; exact hblt) s1 fuel
            (acc ++ [c]) rfl hinv1 (by rw [hrest1]; omega) hshortb
          rw [hrest1] at e1 e3 e4
          refine ⟨s', e1, by rw [e2, hcons1], e3, ?_⟩
          intro o ho
          simp only [Option.map_eq_some'] at ho
          obtain ⟨o', ho', rfl⟩ := ho
          exact hfo o' ho' s' (e4 o' ho')

/-! ## `ReadFrom` in terms of the decoded cookies -/

theorem readLines_good (r : Reader) (hr : GoodReader r) (hs : LinesShort r.data) :
    ∃ s', readLines (r.data.length + 1) (NewScanner r) [] =
        some (s', decodeLines (linesOf r.data) []) ∧
      s'.c ≤ r.data.length ∧
      ((∃ cs, decodeLines (linesOf r.data) [] = .ok cs) → s'.c = r.data.length) ∧
      (∀ o, failOffset (linesOf r.data) = some o → min o r.data.length ≤ s'.c) := by
  have hinv : ScanInv (NewScanner r) :=
    ⟨hr.1, hr.2, by simp [NewScanner], by simp [NewScanner], Or.inl rfl⟩
  obtain ⟨s', e1, e2, e3, e4⟩ := readLines_spec r.data.length (NewScanner r) (r.data.length + 1) []
    rfl hinv (le_refl _) hs
  have e2' : s'.c + s'.r.data.length = r.data.length := by
    rw [e2]; simp [NewScanner]
  refine ⟨s', e1, by omega, ?_, ?_⟩
  · intro h
    have := e3 h
    rw [this] at e2'
    simpa using e2'
  · intro o ho
    have := e4 o ho
    simp only [NewScanner, List.nil_append] at this
    omega

theorem groupStep_fold (j : Jar) (m : Bool) (cm : GoMap originKey (List Cookie))
    (cookies : List Cookie) :
    cookies.foldl groupStep (j, m, cm) =
      ({ j with entries := cookies.foldl insertCookie j.entries },
        (m || anyModification j.entries cookies), groupsFrom cm cookies) := by
  induction cookies generalizing j m cm with
  | nil => simp [groupsFrom, anyModification]
  | cons c rest ih =>
    have hstep : groupStep (j, m, cm) c =
        ({ j with entries := insertCookie j.entries c }, (isModification j.entries c || m),
          mapSet cm (originOf c) ((mapGet cm (originOf c)).getD [] ++ [c])) := by
      unfold groupStep
      simp only [HasPrefix_dot, decide_eq_true_eq]
      rw [show putCookie j c = ((putCookie j c).1, (putCookie j c).2) from rfl]
      simp only [putCookie_entries, putCookie_flag, originOf, List.drop_one]
    rw [List.foldl_cons, hstep, ih]
    simp only [List.foldl_cons, anyModification, groupsFrom]
    refine Prod.ext rfl (Prod.ext ?_ rfl)
    simp only
    cases isModification j.entries c <;> cases m <;> simp

theorem forwardStep_fold (j : Jar) (cm : GoMap originKey (List Cookie)) :
    cm.foldl forwardStep j =
      { j with subJar := j.subJar ++ cm.map (fun kv => (urlOf kv.1, kv.2)) } := by
  induction cm generalizing j with
  | nil => simp
  | cons kv rest ih =>
    rw [List.foldl_cons, ih]
    simp [forwardStep, urlOf]

theorem ReadFrom_of_readLines (j : Jar) (r : Reader) (s : Scanner)
    (out : Except Error (List Cookie))
    (h : readLines (r.data.length + 1) (NewScanner r) [] = some (s, out)) :
    ReadFrom j r = some (readOutcome j s.c out) := by
  unfold ReadFrom
  rw [h]
  cases out with
  | error e => rfl
  | ok cookies =>
    simp only [groupStep_fold, forwardStep_fold, jarAfterRead, readOutcome]

theorem ReadFrom_some (j : Jar) (r : Reader) (res : ReadResult) (h : ReadFrom j r = some res) :
    ∃ s out, readLines (r.data.length + 1) (NewScanner r) [] = some (s, out) ∧
      res = readOutcome j s.c out := by
  cases hrl : readLines (r.data.length + 1) (NewScanner r) [] with
  | none => simp [ReadFrom, hrl] at h
  | some p =>
    obtain ⟨s, out⟩ := p
    rw [ReadFrom_of_readLines j r s out hrl] at h
    exact ⟨s, out, rfl, (Option.some.inj h).symm⟩

/-! ## `ReadFrom`: decode errors, the count and the table -/

theorem decodeLines_error_iff (ls : List Str) (acc : List Cookie) :
    (∃ e, decodeLines ls acc = .error e) ↔ ∃ o, failOffset ls = some o := by
  induction ls generalizing acc with
  | nil => simp [decodeLines, failOffset]
  | cons l ls ih =>
    simp only [decodeLines, failOffset]
    cases Unmarshal (dropCR l) with
    | error e => simp
    | ok oc =>
      have hm : (∃ o, (failOffset ls).map (fun o => o + (l.length + 1)) = some o) ↔
          ∃ o, failOffset ls = some o := by
        cases failOffset ls <;> simp
      cases oc with
      | none => exact (ih acc).trans hm.symm
      | some c => exact (ih (acc ++ [c])).trans hm.symm

/-- C17: after a successful `ReadFrom`, with `cookies` the records its first loop
decoded, in file order: every key carried by at least one of them holds the last
record with that key, and every other key holds the record it held before. On a
well-behaved reader whose lines are shorter than the maximal token size, these
records are the ones of the lines of the stream, in order. -/
theorem ReadFrom_last_wins (j : Jar) (r : Reader) (res : ReadResult)
    (h : ReadFrom j r = some res) (herr : res.err = none) :
    ∃ s cookies, readLines (r.data.length + 1) (NewScanner r) [] = some (s, .ok cookies) ∧
      (∀ k : entryKey, mapGet res.jar.entries k =
        match cookies.reverse.find? (fun c => keyOf c = k) with
        | some c => some c
        | none => mapGet j.entries k) ∧
      (GoodReader r → LinesShort r.data → decodeLines (linesOf r.data) [] = .ok cookies) := by
  obtain ⟨s, out, hrl, hres⟩ := ReadFrom_some j r res h
  cases out with
  | error e => rw [hres] at herr; simp [readOutcome] at herr
  | ok cookies =>
    refine ⟨s, cookies, hrl, fun k => ?_, fun hr hs => ?_⟩
    · rw [hres]
      exact mapGet_foldl_insert _ _ _
    · obtain ⟨s', e1, _⟩ := readLines_good r hr hs
      rw [hrl] at e1
      simp only [Option.some.injEq, Prod.mk.injEq] at e1
      exact e1.2.symm

/-- Witness of C17: two lines with one key; the table holds the record of the
second line. -/
theorem ReadFrom_last_wins_witness :
    ∃ s cookies, readLines (twoLineReader.data.length + 1) (NewScanner twoLineReader) [] =
        some (s, .ok cookies) ∧
      (∀ k : entryKey, mapGet twoLineResult.jar.entries k =
        match cookies.reverse.find? (fun c => keyOf c = k) with
        | some c => some c
        | none => mapGet (New none).entries k) ∧
      (GoodReader twoLineReader → LinesShort twoLineReader.data →
        decodeLines (linesOf twoLineReader.data) [] = .ok cookies) :=
  ReadFrom_last_wins (New none) twoLineReader twoLineResult (by decide) (by decide)

/-- C13, as the code has it: when a line of the stream fails to decode (on a
well-behaved reader whose lines are shorter than the maximal token size),
`ReadFrom` returns the decode error of the first such line and leaves the jar as
it was: no line, before or after the failing one, has an effect on the table or on
the delegate jar. -/
theorem ReadFrom_decode_error (j : Jar) (r : Reader) (hr : GoodReader r)
    (hs : LinesShort r.data) (e : Error) (hfail : decodeLines (linesOf r.data) [] = .error e) :
    ∃ res, ReadFrom j r = some res ∧ res.err = some e ∧ res.jar = j := by
  obtain ⟨s', e1, _⟩ := readLines_good r hr hs
  rw [hfail] at e1
  exact ⟨_, ReadFrom_of_readLines j r s' _ e1, rfl, rfl⟩

/-- Witness of C13 on a cookie line followed by the line `bad`. -/
theorem ReadFrom_decode_error_witness :
    ∃ res, ReadFrom sampleJar badLineReader = some res ∧
      res.err = some (.notEnoughTokens 1) ∧ res.jar = sampleJar :=
  ReadFrom_decode_error sampleJar badLineReader (by decide) (by decide) (.notEnoughTokens 1)
    (by decide)

/-- Counterexample to C13 as stated: the first line of the stream decodes to a
record, the second line fails to decode, `ReadFrom` returns that error, and
after the call the table of the (fresh) jar holds no record under the key of the
first line. -/
theorem ReadFrom_decode_error_counterexample :
    Unmarshal "a.com\tFALSE\t/\tFALSE\t0\tn\tv".toList = .ok (some oneLineCookie) ∧
    Unmarshal "bad".toList = .error (.notEnoughTokens 1) ∧
    (ReadFrom (New none) badLineReader).map
      (fun res => (res.err, mapGet res.jar.entries (keyOf oneLineCookie))) =
      some (some (.notEnoughTokens 1), none) := by
  decide

/-- C14, as the code has it: on a well-behaved reader whose lines are shorter than
the maximal token size, the count `ReadFrom` returns is the number of bytes the
scanner has read from the reader: it is the total number of bytes of the stream
when every line decodes, and, when a line fails to decode, it is at most the total
and at least the number of bytes up to and including that line (or the total, when
the line has no terminator); where it lies in between depends on the chunks. -/
theorem ReadFrom_count (j : Jar) (r : Reader) (hr : GoodReader r) (hs : LinesShort r.data) :
    ∃ res, ReadFrom j r = some res ∧ res.n ≤ r.data.length ∧
      (res.err = none ↔ failOffset (linesOf r.data) = none) ∧
      (res.err = none → res.n = r.data.length) ∧
      (∀ o, failOffset (linesOf r.data) = some o → min o r.data.length ≤ res.n) := by
  obtain ⟨s', e1, e2, e3, e4⟩ := readLines_good r hr hs
  refine ⟨_, ReadFrom_of_readLines j r s' _ e1, ?_, ?_, ?_, ?_⟩
  · cases decodeLines (linesOf r.data) [] <;> exact e2
  · have hiff := decodeLines_error_iff (linesOf r.data) []
    cases hd : decodeLines (linesOf r.data) [] with
    | error e =>
      rw [hd] at hiff
      obtain ⟨o, ho⟩ := hiff.mp ⟨e, rfl⟩
      simp [readOutcome, ho]
    | ok cs =>
      rw [hd] at hiff
      have : failOffset (linesOf r.data) = none := by
        cases hf : failOffset (linesOf r.data) with
        | none => rfl
        | some o =>
          obtain ⟨e, he⟩ := hiff.mpr ⟨o, hf⟩
          simp at he
      simp [readOutcome, this]
  · cases hd : decodeLines (linesOf r.data) [] with
    | error e => simp [readOutcome]
    | ok cs =>
      intro _
      exact e3 ⟨cs, hd⟩
  · intro o ho
    cases decodeLines (linesOf r.data) [] <;> exact e4 o ho

/-- Witness of C14 on the line `bad` followed by the line `more`. -/
theorem ReadFrom_count_witness :
    ∃ res, ReadFrom (New none) { data := "bad\nmore\n".toList, sched := [4, 5], fail := none } =
        some res ∧ res.n ≤ "bad\nmore\n".toList.length ∧
      (res.err = none ↔ failOffset (linesOf "bad\nmore\n".toList) = none) ∧
      (res.err = none → res.n = "bad\nmore\n".toList.length) ∧
      (∀ o, failOffset (linesOf "bad\nmore\n".toList) = some o →
        min o "bad\nmore\n".toList.length ≤ res.n) :=
  ReadFrom_count (New none) { data := "bad\nmore\n".toList, sched := [4, 5], fail := none }
    (by decide) (by decide)

/-- Counterexample to C14 as stated: the stream `bad<LF>more<LF>` holds 9 bytes and
its first line, which fails to decode, ends after 4 bytes; when the reader
delivers the stream in one chunk `ReadFrom` returns the count 9, and when it
delivers 4 bytes first `ReadFrom` returns the count 4. -/
theorem ReadFrom_count_counterexample :
    failOffset (linesOf "bad\nmore\n".toList) = some 4 ∧
    (ReadFrom (New none) { data := "bad\nmore\n".toList, sched := [], fail := none }).map
      (fun res => (res.n, res.err)) = some (9, some (.notEnoughTokens 1)) ∧
    (ReadFrom (New none) { data := "bad\nmore\n".toList, sched := [4, 5], fail := none }).map
      (fun res => (res.n, res.err)) = some (4, some (.notEnoughTokens 1)) := by
  decide

/-! ## `ReadFrom`: the calls the delegate jar receives -/

theorem mapGet_of_not_mem {κ ν : Type} [DecidableEq κ] (m : GoMap κ ν) (k : κ)
    (h : k ∉ m.map Prod.fst) : mapGet m k = none := by
  induction m with
  | nil => rfl
  | cons p rest ih =>
    obtain ⟨k0, v0⟩ := p
    simp only [List.map_cons, List.mem_cons, not_or] at h
    have hk : ¬ k0 = k := fun e => h.1 e.symm
    simp only [mapGet, if_neg hk]
    exact ih h.2

theorem mem_iff_mapGet {κ ν : Type} [DecidableEq κ] (m : GoMap κ ν) (k : κ) (v : ν)
    (h : (m.map Prod.fst).Nodup) : (k, v) ∈ m ↔ mapGet m k = some v := by
  induction m with
  | nil => simp [mapGet]
  | cons p rest ih =>
    obtain ⟨k0, v0⟩ := p
    simp only [List.map_cons, List.nodup_cons] at h
    by_cases hk : k0 = k
    · subst hk
      simp only [mapGet, if_true, List.mem_cons, Prod.mk.injEq, true_and, Option.some.injEq]
      constructor
      · rintro (rfl | hmem)
        · rfl
        · exact absurd (List.mem_map_of_mem Prod.fst hmem) h.1
      · intro e; exact Or.inl e.symm
    · simp only [mapGet, if_neg hk, List.mem_cons, Prod.mk.injEq]
      rw [← ih h.2]
      constructor
      · rintro (⟨e, _⟩ | hmem)
        · exact absurd e.symm hk
        · exact hmem
      · exact Or.inr

theorem sum_mapSet {κ : Type} [DecidableEq κ] (m : GoMap κ (List Cookie)) (k : κ)
    (v : List Cookie) :
    ((mapSet m k v).map (fun p => p.2.length)).sum + ((mapGet m k).getD []).length =
      (m.map (fun p => p.2.length)).sum + v.length := by
  induction m with
  | nil => simp [mapSet, mapGet]
  | cons p rest ih =>
    obtain ⟨k0, v0⟩ := p
    by_cases hk : k0 = k
    · subst hk
      simp [mapSet, mapGet]
      omega
    · simp only [mapSet, mapGet, if_neg hk, List.map_cons, List.sum_cons]
      omega

theorem groupsFrom_spec (cm : GoMap originKey (List Cookie)) (pre cookies : List Cookie)
    (hn : (cm.map Prod.fst).Nodup)
    (hg : ∀ k, mapGet cm k = if batchOf pre k = [] then none else some (batchOf pre k))
    (hsum : (cm.map (fun p => p.2.length)).sum = pre.length) :
    ((groupsFrom cm cookies).map Prod.fst).Nodup ∧
    (∀ k, mapGet (groupsFrom cm cookies) k =
      if batchOf (pre ++ cookies) k = [] then none else some (batchOf (pre ++ cookies) k)) ∧
    ((groupsFrom cm cookies).map (fun p => p.2.length)).sum = (pre ++ cookies).length := by
  induction cookies generalizing cm pre with
  | nil => simpa [groupsFrom] using ⟨hn, hg, hsum⟩
  | cons c rest ih =>
    have hold : (mapGet cm (originOf c)).getD [] = batchOf pre (originOf c) := by
      rw [hg]
      split_ifs with h
      · rw [h]; rfl
      · rfl
    have hstep := ih (mapSet cm (originOf c) ((mapGet cm (originOf c)).getD [] ++ [c]))
      (pre ++ [c]) (keys_mapSet_nodup _ _ _ hn) ?_ ?_
    · simpa [groupsFrom] using hstep
    · intro k
      rw [mapGet_mapSet, hold]
      by_cases hk : originOf c = k
      · subst hk
        simp [batchOf, List.filter_append]
      · rw [if_neg hk, hg]
        simp [batchOf, List.filter_append, hk]
    · have := sum_mapSet cm (originOf c) ((mapGet cm (originOf c)).getD [] ++ [c])
      simp only [List.length_append, List.length_singleton] at this ⊢
      omega

theorem urlOf_injective (k k' : originKey) (h : urlOf k = urlOf k') : k = k' := by
  obtain ⟨s, d, p⟩ := k
  obtain ⟨s', d', p'⟩ := k'
  simp only [urlOf, URL.mk.injEq] at h
  obtain ⟨h1, h2, h3⟩ := h
  subst h2 h3
  cases s <;> cases s'
  · rfl
  · simp at h1
  · simp at h1
  · rfl

/-- C19: on a successful `ReadFrom`, with `cookies` the records its first loop
decoded, in file order, the delegate jar receives after its earlier calls a list of
calls with distinct URLs; a call with URL `u` and batch `batch` is in the list
exactly when, for some origin key (secure, domain with one leading dot removed,
path), `u` has the scheme `https` if secure and `http` otherwise, the host of the
domain and the path of the key, and `batch` is the non-empty list of the decoded
records with that origin key, in file order; and the batches hold as many records
as were decoded, so every decoded record is forwarded exactly once. -/
theorem ReadFrom_forwards (j : Jar) (r : Reader) (res : ReadResult)
    (h : ReadFrom j r = some res) (herr : res.err = none) :
    ∃ s cookies calls,
      readLines (r.data.length + 1) (NewScanner r) [] = some (s, .ok cookies) ∧
      res.jar.subJar = j.subJar ++ calls ∧
      (calls.map Prod.fst).Nodup ∧
      (∀ u batch, (u, batch) ∈ calls ↔
        ∃ k : originKey, u = { Scheme := if k.Secure then "https".toList else "http".toList,
                               Host := k.Domain, Path := k.Path } ∧
          batch = cookies.filter (fun c => decide (originOf c = k)) ∧ batch ≠ []) ∧
      (calls.map (fun p => p.2.length)).sum = cookies.length := by
  obtain ⟨s, out, hrl, hres⟩ := ReadFrom_some j r res h
  cases out with
  | error e => rw [hres] at herr; simp [readOutcome] at herr
  | ok cookies =>
    obtain ⟨g1, g2, g3⟩ := groupsFrom_spec [] [] cookies (by simp) (by intro k; rfl) (by simp)
    simp only [List.nil_append] at g2 g3
    refine ⟨s, cookies, (groupsFrom [] cookies).map (fun kv => (urlOf kv.1, kv.2)), hrl,
      by rw [hres]; rfl, ?_, ?_, ?_⟩
    · rw [List.map_map]
      have : (Prod.fst ∘ fun kv : originKey × List Cookie => (urlOf kv.1, kv.2)) =
          urlOf ∘ Prod.fst := rfl
      rw [this, ← List.map_map]
      exact List.Nodup.map (fun a b hab => urlOf_injective a b hab) g1
    · intro u batch
      simp only [List.mem_map, Prod.mk.injEq, Prod.exists]
      constructor
      · rintro ⟨k, v, hmem, hu, hv⟩
        subst hv
        have hget := (mem_iff_mapGet _ k v g1).mp hmem
        rw [g2] at hget
        split_ifs at hget with hb
        simp only [Option.some.injEq] at hget
        exact ⟨k, hu.symm, hget.symm, by rw [← hget]; exact hb⟩
      · rintro ⟨k, hu, hb, hne⟩
        refine ⟨k, batch, ?_, hu.symm, rfl⟩
        rw [mem_iff_mapGet _ k batch g1, g2]
        have hb' : batchOf cookies k = batch := hb.symm
        rw [hb', if_neg hne]
    · rw [List.map_map]
      exact g3

/-- Witness of C19: two lines with one origin key are forwarded in one call. -/
theorem ReadFrom_forwards_witness :
    ∃ s cookies calls,
      readLines (twoLineReader.data.length + 1) (NewScanner twoLineReader) [] =
        some (s, .ok cookies) ∧
      twoLineResult.jar.subJar = (New none).subJar ++ calls ∧
      (calls.map Prod.fst).Nodup ∧
      (∀ u batch, (u, batch) ∈ calls ↔
        ∃ k : originKey, u = { Scheme := if k.Secure then "https".toList else "http".toList,
                               Host := k.Domain, Path := k.Path } ∧
          batch = cookies.filter (fun c => decide (originOf c = k)) ∧ batch ≠ []) ∧
      (calls.map (fun p => p.2.length)).sum = cookies.length :=
  ReadFrom_forwards (New none) twoLineReader twoLineResult (by decide) (by decide)

/-! ## Writing a table and reading it back -/

theorem marshalLine_eq (c : Cookie) : marshalLine c = cookieLine c := by
  unfold marshalLine
  rw [Marshal_ok]

theorem linesOf_line (a b : Str) (h : '\n' ∉ a) : linesOf (a ++ '\n' :: b) = a :: linesOf b := by
  unfold linesOf
  rw [linesAux_cut _ _ _ h]
  rfl

theorem decimalInt_no_newline (i : Int) : '\n' ∉ decimalInt i := by
  have hnat : ∀ n, '\n' ∉ decimalNat n := by
    intro n hmem
    have := decimalNat_digits n _ hmem
    revert this
    decide
  unfold decimalInt
  split_ifs
  · intro hmem
    rcases List.mem_cons.mp hmem with h | h
    · revert h; decide
    · exact hnat _ h
  · exact hnat _

theorem cookieLine_no_newline (c : Cookie) (hd : '\n' ∉ c.Domain) (hp : '\n' ∉ c.Path)
    (hn : '\n' ∉ c.Name) (hv : '\n' ∉ c.Value) : '\n' ∉ cookieLine c := by
  have h1 : '\n' ∉ (if c.HttpOnly = true then "#HttpOnly_".toList ++ c.Domain else c.Domain) := by
    split_ifs
    · intro hmem
      rcases List.mem_append.mp hmem with h | h
      · revert h; decide
      · exact hd h
    · exact hd
  have h2 : '\n' ∉ (if c.Domain.head? = some '.' then "TRUE".toList else "FALSE".toList) := by
    split_ifs <;> decide
  have h3 : '\n' ∉ (if c.Path = [] then "/".toList else c.Path) := by
    split_ifs
    · decide
    · exact hp
  have h4 : '\n' ∉ (if c.Secure = true then "TRUE".toList else "FALSE".toList) := by
    split_ifs <;> decide
  have h5 := decimalInt_no_newline c.Expires.sec
  have ht : ¬ ('\n' = '\t') := by decide
  unfold cookieLine sevenFields
  simp only [List.mem_append, List.mem_cons, not_or]
  exact ⟨h1, ht, h2, ht, h3, ht, h4, ht, h5, ht, hn, ht, hv⟩

theorem linesOf_tableLines (T : List (entryKey × Cookie))
    (h : ∀ kv ∈ T, '\n' ∉ cookieLine kv.2) :
    linesOf (tableLines T) = T.map (fun kv => cookieLine kv.2) := by
  induction T with
  | nil => rfl
  | cons kv rest ih =>
    rw [tableLines, linesOf_line _ _ (h kv (List.mem_cons_self _ _)),
      ih (fun x hx => h x (List.mem_cons_of_mem _ hx))]
    rfl

theorem linesOf_header (X : Str) : linesOf (fileHeader ++ X) = headerLines ++ linesOf X := by
  have e : fileHeader ++ X = "# Netscape HTTP Cookie File".toList ++ '\n' ::
      ("# https://curl.se/docs/http-cookies.html".toList ++ '\n' :: ([] ++ '\n' :: X)) := rfl
  rw [e, linesOf_line _ _ (by decide), linesOf_line _ _ (by decide),
    linesOf_line _ _ (by decide)]
  rfl

theorem getLast?_append_cons (xs : Str) (t : Char) (v : Str) :
    (xs ++ t :: v).getLast? = some ((v.getLast?).getD t) := by
  rw [List.getLast?_append]
  cases v with
  | nil => simp
  | cons a l =>
    rw [List.getLast?_cons_cons]
    cases h : (a :: l).getLast? with
    | none => simp at h
    | some x => simp

theorem dropCR_cookieLine (c : Cookie) (h : c.Value.getLast? ≠ some '\r') :
    dropCR (cookieLine c) = cookieLine c := by
  have hlast : (cookieLine c).getLast? = some ((c.Value.getLast?).getD '\t') := by
    unfold cookieLine sevenFields
    simp only [getLast?_append_cons, Option.getD_some]
  unfold dropCR
  rw [hlast, if_neg]
  intro hx
  cases hv : c.Value.getLast? with
  | none => rw [hv] at hx; revert hx; decide
  | some y =>
    rw [hv] at hx h
    simp only [Option.getD_some, Option.some.injEq] at hx
    exact h (by rw [hx])

theorem decodeLines_table (T : List (entryKey × Cookie)) (acc : List Cookie)
    (h : ∀ kv ∈ T, Storable kv.2) :
    decodeLines (T.map (fun kv => cookieLine kv.2)) acc =
      .ok (acc ++ T.map (fun kv => reread kv.2)) := by
  induction T generalizing acc with
  | nil => simp [decodeLines]
  | cons kv rest ih =>
    obtain ⟨h1, h2, h3, h4, h5, _, h7, h8, _, _, _, _, h13, _⟩ := h kv (List.mem_cons_self _ _)
    rw [List.map_cons, decodeLines, dropCR_cookieLine _ h13,
      Unmarshal_cookieLine _ h1 h2 h3 h4 h5 h7 h8]
    simp only
    rw [ih _ (fun x hx => h x (List.mem_cons_of_mem _ hx))]
    simp

theorem decodeLines_header (ls : List Str) (acc : List Cookie) :
    decodeLines (headerLines ++ ls) acc = decodeLines ls acc := by
  have e1 : Unmarshal (dropCR "# Netscape HTTP Cookie File".toList) = .ok none := by decide
  have e2 : Unmarshal (dropCR "# https://curl.se/docs/http-cookies.html".toList) = .ok none := by
    decide
  have e3 : Unmarshal (dropCR []) = .ok none := by decide
  simp only [headerLines, List.cons_append, List.nil_append, decodeLines, e1, e2, e3]
  rfl

theorem mapGet_foldl_table (T : List (entryKey × Cookie)) (m : GoMap entryKey Cookie)
    (k : entryKey) (hn : (T.map Prod.fst).Nodup) (hk : ∀ kv ∈ T, kv.1 = keyOf kv.2) :
    mapGet ((T.map (fun kv => reread kv.2)).foldl insertCookie m) k =
      match mapGet T k with
      | some c => some (reread c)
      | none => mapGet m k := by
  induction T generalizing m with
  | nil => rfl
  | cons kv rest ih =>
    obtain ⟨k0, c0⟩ := kv
    simp only [List.map_cons, List.nodup_cons] at hn
    have hk0 : k0 = keyOf (reread c0) := hk (k0, c0) (List.mem_cons_self _ _)
    rw [List.map_cons, List.foldl_cons, ih _ hn.2 (fun x hx => hk x (List.mem_cons_of_mem _ hx))]
    simp only [mapGet, insertCookie, mapGet_mapSet, ← hk0]
    by_cases h : k0 = k
    · subst h
      rw [mapGet_of_not_mem rest k0 hn.1]
      simp
    · simp only [if_neg h]

/-- C2, as the code has it: let a table hold at most one record per key, each under
its own (domain, path, name), and let every record be storable (a non-empty path;
no tab in domain, path and name; no leading `#` in the domain unless httpOnly; an
expiry of whole seconds; no newline in any field; no carriage return at the end of
the value; a line shorter than the maximal token size). For either setting of the
header flag, feeding the bytes `WriteTo` produces into `ReadFrom` on a fresh jar,
through a reader that delivers them in non-empty chunks, succeeds with a nil error
and leaves a table with the same keys and, under each key, a record with the same
field values: equal in domain, path, name, value, secure and httpOnly and, as a
timestamp, in expires. The expiry of the record read back is the `time.Unix` of
the Unix seconds of the record written, so the record read back is the record
written itself when its expiry has no monotonic clock reading and the location
`time.Local`. -/
theorem WriteTo_ReadFrom (jw : Jar) (options : Option Options) (sched : List Nat)
    (hkeys : (jw.entries.map Prod.fst).Nodup) (hkey : ∀ kv ∈ jw.entries, kv.1 = keyOf kv.2)
    (hst : ∀ kv ∈ jw.entries, Storable kv.2) (hsched : ∀ b ∈ sched, 0 < b) :
    ∃ res, ReadFrom (New options)
        { data := (WriteTo jw { out := [], room := none }).1.out, sched := sched,
          fail := none } = some res ∧
      res.err = none ∧ ∀ k : entryKey,
        (mapGet jw.entries k = none → mapGet res.jar.entries k = none) ∧
        (∀ c, mapGet jw.entries k = some c →
          ∃ c', mapGet res.jar.entries k = some c' ∧ sameFields c' c ∧
            c'.Expires = timeUnix c.Expires.Unix ∧
            (c.Expires.mono = none → c.Expires.loc = Location.Local → c' = c)) := by
  have hnl : ∀ kv ∈ jw.entries, '\n' ∉ cookieLine kv.2 := by
    intro kv hkv
    obtain ⟨_, _, _, _, _, _, _, _, h9, h10, h11, h12, _, _⟩ := hst kv hkv
    exact cookieLine_no_newline _ h9 h10 h11 h12
  have hout : (WriteTo jw { out := [], room := none }).1.out =
      (if jw.writeHeader then fileHeader else []) ++ tableLines jw.entries := by
    unfold WriteTo
    rw [unlockedWriteTo_unbounded]
    rfl
  have hlines : linesOf ((if jw.writeHeader then fileHeader else []) ++ tableLines jw.entries) =
      (if jw.writeHeader then headerLines else []) ++
        jw.entries.map (fun kv => cookieLine kv.2) := by
    by_cases hh : jw.writeHeader = true
    · simp only [if_pos hh, linesOf_header, linesOf_tableLines _ hnl]
    · simp only [if_neg hh, List.nil_append, linesOf_tableLines _ hnl]
  have hdecode : decodeLines (linesOf ((if jw.writeHeader then fileHeader else []) ++
      tableLines jw.entries)) [] = .ok (jw.entries.map (fun kv => reread kv.2)) := by
    rw [hlines]
    by_cases hh : jw.writeHeader = true
    · simp only [if_pos hh, decodeLines_header, decodeLines_table _ _ hst, List.nil_append]
    · simp only [if_neg hh, List.nil_append, decodeLines_table _ _ hst]
  have hshort : LinesShort ((if jw.writeHeader then fileHeader else []) ++
      tableLines jw.entries) := by
    unfold LinesShort
    rw [hlines]
    intro l hl
    rcases List.mem_append.mp hl with hl | hl
    · have hhdr : ∀ l ∈ headerLines, l.length < maxScanTokenSize := by decide
      split_ifs at hl
      · exact hhdr l hl
      · simp at hl
    · obtain ⟨kv, hkv, rfl⟩ := List.mem_map.mp hl
      have := (hst kv hkv).2.2.2.2.2.2.2.2.2.2.2.2.2
      rw [marshalLine_eq] at this
      exact this
  rw [hout]
  obtain ⟨s', e1, _⟩ := readLines_good
    { data := (if jw.writeHeader then fileHeader else []) ++ tableLines jw.entries,
      sched := sched, fail := none } ⟨rfl, hsched⟩ hshort
  rw [hdecode] at e1
  refine ⟨_, ReadFrom_of_readLines _ _ s' _ e1, rfl, fun k => ?_⟩
  have hnew : (New options).entries = [] := by
    cases options <;> rfl
  have hget : mapGet ((jw.entries.map (fun kv => reread kv.2)).foldl insertCookie
      (New options).entries) k = (mapGet jw.entries k).map reread := by
    rw [mapGet_foldl_table _ _ _ hkeys hkey, hnew]
    cases mapGet jw.entries k <;> rfl
  have hmem : ∀ c, mapGet jw.entries k = some c → Storable c := by
    intro c hc
    exact hst (k, c) ((mem_iff_mapGet jw.entries k c hkeys).mpr hc)
  refine ⟨fun hk => ?_, fun c hc => ⟨reread c, ?_, sameFields_reread c (hmem c hc).2.2.2.2.2.1⟩⟩
  · show mapGet ((jw.entries.map (fun kv => reread kv.2)).foldl insertCookie
      (New options).entries) k = none
    rw [hget, hk]
    rfl
  · show mapGet ((jw.entries.map (fun kv => reread kv.2)).foldl insertCookie
      (New options).entries) k = some (reread c)
    rw [hget, hc]
    rfl

/-- Witness of C2: the sample jar, written with the header. -/
theorem WriteTo_ReadFrom_witness :
    ∃ res, ReadFrom (New none)
        { data := (WriteTo { sampleJar with writeHeader := true }
            { out := [], room := none }).1.out,
          sched := [7], fail := none } = some res ∧
      res.err = none ∧ ∀ k : entryKey,
        (mapGet ({ sampleJar with writeHeader := true } : Jar).entries k = none →
          mapGet res.jar.entries k = none) ∧
        (∀ c, mapGet ({ sampleJar with writeHeader := true } : Jar).entries k = some c →
          ∃ c', mapGet res.jar.entries k = some c' ∧ sameFields c' c ∧
            c'.Expires = timeUnix c.Expires.Unix ∧
            (c.Expires.mono = none → c.Expires.loc = Location.Local → c' = c)) :=
  WriteTo_ReadFrom { sampleJar with writeHeader := true } none [7]
    (by decide) (by decide) (by decide) (by decide)

/-- Counterexample to C2 as stated: a table holding one cookie with an empty path,
under its key; the bytes `WriteTo` produces, read by `ReadFrom` on a fresh jar,
give a nil error and a table that holds no record under that key. -/
theorem WriteTo_ReadFrom_counterexample :
    (ReadFrom (New none)
      { data := (WriteTo { subJar := [], autoWritePath := [], writeHeader := false,
                           entries := [(keyOf emptyPathCookie, emptyPathCookie)] }
          { out := [], room := none }).1.out,
        sched := [], fail := none }).map
      (fun res => (res.err, mapGet res.jar.entries (keyOf emptyPathCookie))) =
      some (none, none) ∧
    mapGet [(keyOf emptyPathCookie, emptyPathCookie)] (keyOf emptyPathCookie) =
      some emptyPathCookie := by
  decide

/-! ## `ReadFrom` always returns -/

theorem scanLoop_tooLong (fuel : Nat) (s : Scanner) (herr : s.err = none)
    (hs : s.win = [] ∨ ScanLines s.win false = (0, none))
    (hlong : s.compact.endIdx = s.compact.bufLen ∧ s.compact.bufLen ≥ maxScanTokenSize) :
    Scanner.scanLoop (fuel + 1) s = some ({ s.compact with err := some .tooLong }, none) := by
  have hstep : (if s.win ≠ [] ∨ s.err ≠ none then
      (match ScanLines s.win (decide (s.err ≠ none)) with
        | (advance, token) =>
          ({ s with start := s.start + advance, win := s.win.drop advance }, token))
      else (s, none)) = (s, none) := by
    by_cases hw : s.win = []
    · rw [if_neg]
      simp [hw, herr]
    · rw [if_pos (Or.inl hw)]
      have h2 : ScanLines s.win false = (0, none) := hs.resolve_left hw
      simp only [herr, ne_eq, not_true_eq_false, decide_False, h2, Nat.add_zero, List.drop_zero]
      rw [← herr]
  rw [Scanner.scanLoop]
  simp only [hstep]
  rw [if_neg (by simp [herr])]
  unfold Scanner.compact at hlong ⊢
  by_cases hc : s.start > 0 ∧ (s.endIdx = s.bufLen ∨ s.start > s.bufLen / 2)
  · simp only [if_pos hc] at hlong ⊢
    simp only [if_pos hlong.1, if_pos hlong.2]
  · simp only [if_neg hc] at hlong ⊢
    simp only [if_pos hlong.1, if_pos hlong.2]

theorem compact_same (s : Scanner) :
    s.compact.win = s.win ∧ s.compact.r = s.r ∧ s.compact.err = s.err := by
  unfold Scanner.compact
  split_ifs <;> exact ⟨rfl, rfl, rfl⟩

theorem grow_same (s : Scanner) : s.grow.win = s.win ∧ s.grow.r = s.r ∧ s.grow.err = s.err := by
  unfold Scanner.grow
  split_ifs <;> exact ⟨rfl, rfl, rfl⟩

theorem fill_progress (tries : Nat) (s : Scanner) :
    (Scanner.fill tries s).win.length + (Scanner.fill tries s).r.data.length =
      s.win.length + s.r.data.length ∧
    (Scanner.fill tries s).r.data.length ≤ s.r.data.length ∧
    ((Scanner.fill tries s).err ≠ none ∨
      (Scanner.fill tries s).r.data.length < s.r.data.length) := by
  induction tries generalizing s with
  | zero => simp [Scanner.fill]
  | succ tries ih =>
    rw [Scanner.fill]
    unfold Reader.Read
    cases hd : s.r.data with
    | nil => simp [hd]
    | cons d ds =>
      simp only
      split_ifs with h1 h2
      · refine ⟨?_, ?_, Or.inr ?_⟩
        · simp only [List.length_append, List.length_take, List.length_drop, List.length_cons]
          omega
        · simp only [List.length_drop, List.length_cons]
          omega
        · simp only [List.length_take, List.length_drop, List.length_cons] at h1 ⊢
          omega
      · refine ⟨?_, ?_, Or.inl (by simp)⟩
        · simp only [List.length_append, List.length_take, List.length_drop, List.length_cons]
          omega
        · simp only [List.length_drop, List.length_cons]
          omega
      · obtain ⟨e1, e0, e2⟩ := ih
          { s with
            r := { data := List.drop (match s.r.sched with
                    | [] => s.bufLen - s.endIdx
                    | b :: _ => min b (s.bufLen - s.endIdx)) (d :: ds),
                   sched := s.r.sched.tail, fail := s.r.fail }
            c := s.c + (List.take (match s.r.sched with
                    | [] => s.bufLen - s.endIdx
                    | b :: _ => min b (s.bufLen - s.endIdx)) (d :: ds)).length
            win := s.win ++ List.take (match s.r.sched with
                    | [] => s.bufLen - s.endIdx
                    | b :: _ => min b (s.bufLen - s.endIdx)) (d :: ds) }
        refine ⟨?_, ?_, ?_⟩
        · rw [e1]
          simp only [List.length_append, List.length_take, List.length_drop, List.length_cons]
          omega
        · simp only [List.length_drop, List.length_cons] at e0 ⊢
          omega
        · rcases e2 with e2 | e2
          · exact Or.inl e2
          · right
            simp only [List.length_drop, List.length_cons] at e2 ⊢
            omega

theorem ScanLines_token (win : Str) (atEOF : Bool) (adv : Nat) (tok : Str)
    (h : ScanLines win atEOF = (adv, some tok)) : 1 ≤ adv ∧ adv ≤ win.length := by
  cases hc : cutAt '\n' win with
  | some p =>
    obtain ⟨a, b⟩ := p
    rw [ScanLines_cut win a b atEOF hc] at h
    simp only [Prod.mk.injEq] at h
    obtain ⟨e, _⟩ := cutAt_some '\n' win a b hc
    rw [← h.1, e]
    simp
  | none =>
    cases atEOF with
    | false =>
      rcases ScanLines_more win hc with hw | hm
      · rw [hw] at h; simp [ScanLines, cutAt] at h
      · rw [hm] at h; simp at h
    | true =>
      by_cases hw : win = []
      · rw [hw, ScanLines_nil] at h; simp at h
      · rw [ScanLines_eof win hc hw] at h
        simp only [Prod.mk.injEq] at h
        rw [← h.1]
        exact ⟨List.length_pos.mpr hw, le_refl _⟩

theorem ScanLines_none (win : Str) (atEOF : Bool) (adv : Nat)
    (h : ScanLines win atEOF = (adv, none)) : adv = 0 := by
  cases hc : cutAt '\n' win with
  | some p =>
    obtain ⟨a, b⟩ := p
    rw [ScanLines_cut win a b atEOF hc] at h
    simp at h
  | none =>
    cases atEOF with
    | false =>
      rcases ScanLines_more win hc with hw | hm
      · rw [hw] at h; simp [ScanLines, cutAt] at h; exact h.symm
      · rw [hm] at h; simp only [Prod.mk.injEq] at h; exact h.1.symm
    | true =>
      by_cases hw : win = []
      · rw [hw, ScanLines_nil] at h; simp only [Prod.mk.injEq] at h; exact h.1.symm
      · rw [ScanLines_eof win hc hw] at h
        simp at h

theorem scanLoop_err (fuel : Nat) (s : Scanner) (herr : s.err ≠ none) :
    ∃ s' tok, Scanner.scanLoop (fuel + 1) s = some (s', tok) ∧
      s'.win.length + s'.r.data.length + (if tok.isSome then 1 else 0) ≤
        s.win.length + s.r.data.length := by
  cases hsl : ScanLines s.win (decide (s.err ≠ none)) with
  | mk adv otok =>
    cases otok with
    | none =>
      refine ⟨_, _, scanLoop_done fuel s adv herr hsl, ?_⟩
      simp
    | some tok =>
      obtain ⟨h1, h2⟩ := ScanLines_token _ _ _ _ hsl
      refine ⟨_, _, scanLoop_token fuel s adv tok (Or.inr herr) hsl, ?_⟩
      simp only [List.length_drop, Option.isSome_some, if_true]
      omega

theorem scanLoop_total (k : Nat) : ∀ (s : Scanner) (fuel : Nat), s.r.data.length = k →
    (s.err = none → k + 2 ≤ fuel) → 1 ≤ fuel →
    ∃ s' tok, Scanner.scanLoop fuel s = some (s', tok) ∧
      s'.win.length + s'.r.data.length + (if tok.isSome then 1 else 0) ≤
        s.win.length + s.r.data.length := by
  induction k using Nat.strong_induction_on with
  | _ k ih =>
    intro s fuel hk hfuel h1
    obtain ⟨fuel, rfl⟩ : ∃ f, fuel = f + 1 := ⟨fuel - 1, by omega⟩
    by_cases herr : s.err = none
    · have hf := hfuel herr
      have hdec : decide (s.err ≠ none) = false := by simp [herr]
      cases hsl : ScanLines s.win false with
      | mk adv otok =>
        cases otok with
        | some tok =>
          have hw : s.win ≠ [] := by
            intro hw
            rw [hw] at hsl
            simp [ScanLines, cutAt] at hsl
          obtain ⟨h1, h2⟩ := ScanLines_token _ _ _ _ hsl
          refine ⟨_, _, scanLoop_token fuel s adv tok (Or.inl hw) (by rw [hdec]; exact hsl), ?_⟩
          simp only [List.length_drop, Option.isSome_some, if_true]
          omega
        | none =>
          have hadv := ScanLines_none _ _ _ hsl
          subst hadv
          have hs : s.win = [] ∨ ScanLines s.win false = (0, none) := Or.inr hsl
          obtain ⟨c1, c2, _⟩ := compact_same s
          by_cases hlong : s.compact.endIdx = s.compact.bufLen ∧
              s.compact.bufLen ≥ maxScanTokenSize
          · refine ⟨_, _, scanLoop_tooLong fuel s herr hs hlong, ?_⟩
            show s.compact.win.length + s.compact.r.data.length + 0 ≤ _
            rw [c1, c2]; omega
          · rw [scanLoop_more fuel s herr hs hlong]
            obtain ⟨g1, g2, _⟩ := grow_same s.compact
            obtain ⟨f1, f0, f2⟩ := fill_progress (maxConsecutiveEmptyReads + 1) s.compact.grow
            rw [g1, g2, c1, c2] at f1
            rw [g2, c2] at f0 f2
            obtain ⟨fuel, rfl⟩ : ∃ f, fuel = f + 1 := ⟨fuel - 1, by omega⟩
            generalize Scanner.fill (maxConsecutiveEmptyReads + 1) s.compact.grow = s3 at f1 f0 f2
            rcases f2 with f2 | f2
            · obtain ⟨s', tok, e1, e2⟩ := scanLoop_err fuel s3 f2
              exact ⟨s', tok, e1, by omega⟩
            · obtain ⟨s', tok, e1, e2⟩ := ih s3.r.data.length (by omega) s3 (fuel + 1) rfl
                (fun _ => by omega) (by omega)
              exact ⟨s', tok, e1, by omega⟩
    · exact scanLoop_err fuel s herr

theorem readLines_total (k : Nat) : ∀ (s : Scanner) (fuel : Nat) (acc : List Cookie),
    s.win.length + s.r.data.length = k → k + 1 ≤ fuel →
    ∃ res, readLines fuel s acc = some res := by
  induction k using Nat.strong_induction_on with
  | _ k ih =>
    intro s fuel acc hk hfuel
    obtain ⟨fuel, rfl⟩ : ∃ f, fuel = f + 1 := ⟨fuel - 1, by omega⟩
    obtain ⟨s', tok, e1, e2⟩ := scanLoop_total s.r.data.length s (s.r.data.length + 2) rfl
      (fun _ => le_refl _) (by omega)
    have hScan : s.Scan = some (s', tok) := e1
    rw [readLines, hScan]
    cases tok with
    | none => exact ⟨_, rfl⟩
    | some line =>
      simp only [Option.isSome_some, if_true] at e2
      dsimp only
      cases Unmarshal line with
      | error e => exact ⟨_, rfl⟩
      | ok oc =>
        cases oc with
        | none =>
          exact ih (s'.win.length + s'.r.data.length) (by omega) s' fuel acc rfl (by omega)
        | some c =>
          exact ih (s'.win.length + s'.r.data.length) (by omega) s' fuel (acc ++ [c]) rfl
            (by omega)

/-- The method `ReadFrom` returns for every jar and every reader: the bounds on the
numbers of iterations in `Scanner.Scan` and `ReadFrom` are never reached. -/
theorem ReadFrom_total (j : Jar) (r : Reader) : ∃ res, ReadFrom j r = some res := by
  obtain ⟨⟨s, out⟩, h⟩ := readLines_total r.data.length (NewScanner r) (r.data.length + 1) []
    (by simp [NewScanner]) (le_refl _)
  exact ⟨_, ReadFrom_of_readLines j r s out h⟩

/-- C12, the code at the failing input: on a jar with the auto-write path
`cookies.txt` and an empty table, `ReadFrom` of one cookie line succeeds and
inserts the cookie under a new key (a modification under the change-detection
policy), and `os.Create` is not called. For every jar and reader `ReadFrom`
returns without calling it. -/
theorem ReadFrom_no_auto_write :
    (ReadFrom
        (New (some { SubJar := none, AutoWritePath := "cookies.txt".toList, WriteHeader := false }))
        oneLineReader).map
      (fun res => (res.err, mapGet res.jar.entries (keyOf oneLineCookie), res.created)) =
      some (none, some oneLineCookie, []) ∧
    isModification [] oneLineCookie = true ∧
    (∀ (j : Jar) (r : Reader), ∃ res, ReadFrom j r = some res ∧ res.created = []) := by
  refine ⟨by decide, by decide, fun j r => ?_⟩
  obtain ⟨res, h⟩ := ReadFrom_total j r
  exact ⟨res, h, ReadFrom_created j r res h⟩

end NetscapeCookieJar
